import Mathlib

/-!
Verification of the Dangerous Workflow detector
(`checks/raw/dangerous_workflow.go` of the scorecard repository).

The Go code is shallowly embedded: Go strings become `List Char`,
`strings.Index` / `strings.Contains` / `strings.Split` become executable
functions on character lists, the actionlint document model becomes a
small inductive data model (nil pointers become `Option`), the remote
repository client becomes an explicit deterministic `Backend` record of
fallible operations, and the result accumulator `pdata.Workflows`
becomes explicit list-passing state.  A nil-pointer dereference (a Go
panic) is modelled as a distinguished outcome.
-/

namespace Scorecard

/-- Go strings are modelled as lists of characters. -/
abbrev Str := List Char

/-- Does `s` start with the pattern `pat`?  (Embedding of the prefix test
underlying Go's `strings.Index` search loop.) -/
def leadsWith : Str → Str → Bool
  | [], _ => true
  | _ :: _, [] => false
  | p :: ps, c :: cs => if p = c then leadsWith ps cs else false

/-- Embedding of Go `strings.Index(s, pat)`: index of the first occurrence
of `pat` in `s`, `none` when absent (Go returns `-1`). -/
def strIndex (pat : Str) : Str → Option Nat
  | [] => if leadsWith pat [] then some 0 else none
  | c :: rest =>
    if leadsWith pat (c :: rest) then some 0
    else (strIndex pat rest).map (fun n => n + 1)

/-- Embedding of Go `strings.Contains(s, pat)`. -/
def containsStr (s pat : Str) : Bool := (strIndex pat s).isSome

@[simp] theorem leadsWith_nil_left (s : Str) : leadsWith [] s = true := by
  cases s <;> rfl

@[simp] theorem leadsWith_cons_nil (p : Char) (ps : Str) :
    leadsWith (p :: ps) [] = false := rfl

theorem leadsWith_cons_cons (p c : Char) (ps cs : Str) :
    leadsWith (p :: ps) (c :: cs) = if p = c then leadsWith ps cs else false := rfl

theorem head_eq_of_leadsWith {p c : Char} {ps cs : Str}
    (h : leadsWith (p :: ps) (c :: cs) = true) : p = c := by
  rw [leadsWith_cons_cons] at h
  by_cases hpc : p = c
  · exact hpc
  · simp [hpc] at h

theorem leadsWith_append (pat s : Str) : leadsWith pat (pat ++ s) = true := by
  induction pat with
  | nil => simp
  | cons p ps ih => simpa [leadsWith_cons_cons] using ih

theorem eq_append_of_leadsWith {pat s : Str} (h : leadsWith pat s = true) :
    ∃ t, s = pat ++ t := by
  induction pat generalizing s with
  | nil => exact ⟨s, rfl⟩
  | cons p ps ih =>
    cases s with
    | nil => simp at h
    | cons c cs =>
      have hpc : p = c := head_eq_of_leadsWith h
      rw [leadsWith_cons_cons, if_pos hpc] at h
      obtain ⟨t, ht⟩ := ih h
      exact ⟨t, by simp [hpc, ht]⟩

theorem strIndex_nil (pat : Str) :
    strIndex pat [] = if leadsWith pat [] then some 0 else none := rfl

theorem strIndex_cons (pat : Str) (c : Char) (rest : Str) :
    strIndex pat (c :: rest) =
      if leadsWith pat (c :: rest) then some 0
      else (strIndex pat rest).map (fun n => n + 1) := rfl

/-- A found index points at an occurrence of the pattern. -/
theorem leadsWith_drop_of_strIndex {pat s : Str} {i : Nat}
    (h : strIndex pat s = some i) : leadsWith pat (s.drop i) = true := by
  induction s generalizing i with
  | nil =>
    rw [strIndex_nil] at h
    by_cases hl : leadsWith pat [] = true
    · simp [hl] at h
      simpa [← h] using hl
    · simp [hl] at h
  | cons c rest ih =>
    rw [strIndex_cons] at h
    by_cases hl : leadsWith pat (c :: rest) = true
    · simp [hl] at h
      simpa [← h] using hl
    · simp [hl] at h
      obtain ⟨j, hj, hji⟩ := h
      subst hji
      simpa using ih hj

/-- `strIndex` returns the first occurrence: completeness direction. -/
theorem strIndex_le_of_leadsWith_drop {pat s : Str} {k : Nat}
    (h : leadsWith pat (s.drop k) = true) :
    ∃ i, strIndex pat s = some i ∧ i ≤ k := by
  induction s generalizing k with
  | nil =>
    refine ⟨0, ?_, Nat.zero_le k⟩
    simp only [List.drop_nil] at h
    simp [strIndex_nil, h]
  | cons c rest ih =>
    by_cases hl : leadsWith pat (c :: rest) = true
    · exact ⟨0, by simp [strIndex_cons, hl], Nat.zero_le k⟩
    · cases k with
      | zero =>
        simp only [List.drop_zero] at h
        exact absurd h hl
      | succ k' =>
        simp only [List.drop_succ_cons] at h
        obtain ⟨i, hi, hik⟩ := ih h
        refine ⟨i + 1, ?_, Nat.succ_le_succ hik⟩
        simp [strIndex_cons, hl, hi]

/-- When the pattern is absent, it occurs at no position. -/
theorem not_leadsWith_drop_of_strIndex_none {pat s : Str}
    (h : strIndex pat s = none) (k : Nat) : leadsWith pat (s.drop k) = false := by
  by_contra hk
  have hk' : leadsWith pat (s.drop k) = true := by
    cases hh : leadsWith pat (s.drop k)
    · exact absurd hh hk
    · rfl
  obtain ⟨i, hi, _⟩ := strIndex_le_of_leadsWith_drop hk'
  rw [h] at hi
  exact Option.noConfusion hi

/-- A nonempty pattern can only be found strictly inside the string. -/
theorem strIndex_lt_length {pat s : Str} {i : Nat} (hne : pat ≠ [])
    (h : strIndex pat s = some i) : i < s.length := by
  have hl := leadsWith_drop_of_strIndex h
  by_contra hge
  have : s.drop i = [] := List.drop_eq_nil_of_le (Nat.le_of_not_lt hge)
  rw [this] at hl
  cases pat with
  | nil => exact hne rfl
  | cons p ps => simp at hl

/-! ## Expression Risk Matcher (`containsUntrustedContextPattern`)

The Go code tests the expression against the regular expression
`.*(issue\.title|…|pull_request\.head\.repo\.default_branch).*` with
`MatchString` (unanchored search).  Since the outer `.*` pieces may match
the empty string, the regex matches exactly when some alternative matches
a substring.  An alternative without an inner `.*` is a literal, so it
matches a substring iff it occurs as a substring.  An alternative of the
form `A.*B` matches a substring iff an occurrence of `A` is followed by an
occurrence of `B` with only non-newline characters in between (Go's `.`
does not match `\n`). -/

/-- Search for `p2` at the current position or further right, crossing
only non-newline characters (the inner `.*` of an alternative). -/
def gapSearch (p2 : Str) : Str → Bool
  | [] => leadsWith p2 []
  | c :: rest => leadsWith p2 (c :: rest) || (if c = '\n' then false else gapSearch p2 rest)

/-- Does some substring of `s` match `p1` + `.*` + `p2` (Go regex with
non-newline `.*` in the middle)? -/
def searchTwo (p1 p2 : Str) : Str → Bool
  | [] => leadsWith p1 [] && gapSearch p2 []
  | c :: rest =>
    (leadsWith p1 (c :: rest) && gapSearch p2 (List.drop p1.length (c :: rest))) ||
      searchTwo p1 p2 rest

/-- Embedding of the `untrustedContextPattern` regex of
`containsUntrustedContextPattern`, alternative by alternative in source
order. -/
def untrustedContextMatch (v : Str) : Bool :=
  containsStr v "issue.title".toList ||
  containsStr v "issue.body".toList ||
  containsStr v "pull_request.title".toList ||
  containsStr v "pull_request.body".toList ||
  containsStr v "comment.body".toList ||
  containsStr v "review.body".toList ||
  containsStr v "review_comment.body".toList ||
  searchTwo "pages".toList ".page_name".toList v ||
  searchTwo "commits".toList ".message".toList v ||
  containsStr v "head_commit.message".toList ||
  containsStr v "head_commit.author.email".toList ||
  containsStr v "head_commit.author.name".toList ||
  searchTwo "commits".toList ".author.email".toList v ||
  searchTwo "commits".toList ".author.name".toList v ||
  containsStr v "pull_request.head.ref".toList ||
  containsStr v "pull_request.head.label".toList ||
  containsStr v "pull_request.head.repo.default_branch".toList

/-- Embedding of `containsUntrustedContextPattern` from
`dangerous_workflow.go` (its Go parameter is named `variable`, a reserved
word here). -/
def containsUntrustedContextPattern (v : Str) : Bool :=
  if containsStr v "github.head_ref".toList then true
  else containsStr v "github.event.".toList && untrustedContextMatch v

/-- A fixed untrusted-field pattern: either a literal substring or a pair
of literals separated by arbitrary non-newline text.  This is the
spec-side view of the pattern list as configuration data. -/
inductive FieldPat where
  | plain (p : Str)
  | gap (p1 p2 : Str)

/-- Does an expression match one fixed untrusted-field pattern? -/
def matchFieldPat (v : Str) : FieldPat → Bool
  | .plain p => containsStr v p
  | .gap p1 p2 => searchTwo p1 p2 v

/-- The fixed pattern list of untrusted event fields named by the spec:
issue/PR title and body, comment/review/review_comment body, page names,
commit messages, commit author name/email, head_commit message/author,
and PR head ref/label/default_branch. -/
def untrustedFieldPats : List FieldPat :=
  [.plain "issue.title".toList,
   .plain "issue.body".toList,
   .plain "pull_request.title".toList,
   .plain "pull_request.body".toList,
   .plain "comment.body".toList,
   .plain "review.body".toList,
   .plain "review_comment.body".toList,
   .gap "pages".toList ".page_name".toList,
   .gap "commits".toList ".message".toList,
   .plain "head_commit.message".toList,
   .plain "head_commit.author.email".toList,
   .plain "head_commit.author.name".toList,
   .gap "commits".toList ".author.email".toList,
   .gap "commits".toList ".author.name".toList,
   .plain "pull_request.head.ref".toList,
   .plain "pull_request.head.label".toList,
   .plain "pull_request.head.repo.default_branch".toList]

/-- **C7.** For every expression string, the Expression Risk Matcher
returns true iff either (a) the string contains `github.head_ref`, or
(b) it contains `github.event.` and matches the fixed pattern list of
untrusted event fields. -/
theorem claim_C7_expression_risk_matcher (v : Str) :
    containsUntrustedContextPattern v = true ↔
      (containsStr v "github.head_ref".toList = true ∨
        (containsStr v "github.event.".toList = true ∧
          untrustedFieldPats.any (matchFieldPat v) = true)) := by
  by_cases h : containsStr v "github.head_ref".toList = true
  · have hL : containsUntrustedContextPattern v = true := by
      unfold containsUntrustedContextPattern
      rw [if_pos h]
    simp only [hL, true_iff]
    exact Or.inl h
  · simp only [containsUntrustedContextPattern, untrustedContextMatch, untrustedFieldPats,
      List.any_cons, List.any_nil, matchFieldPat, if_neg h, Bool.and_eq_true, Bool.or_eq_true]
    tauto

/-! ## Data model

The slice of the actionlint document model and of the checker result
model that `dangerous_workflow.go` consumes.  Go nil pointers become
`Option`; `actionlint.Step.Exec` (an interface that is either
`*ExecAction` or `*ExecRun`, or nil) becomes `Option ExecT`;
`map[string]*actionlint.Input` becomes an association list from input
name to the input's (nilable) value string. -/

/-- `checker.DangerousWorkflowType`: the closed set of finding types. -/
inductive DangerousWorkflowType where
  | untrustedCheckout
  | scriptInjection
  | imposterReference
deriving DecidableEq, Repr

/-- `checker.File` as populated here: path, offset (line number from
`fileparser.GetLineNumber`), snippet.  The `Type` field is always
`finding.FileTypeSource` in this code and is omitted. -/
structure FileLoc where
  path : Str
  offset : Nat
  snippet : Str
deriving DecidableEq, Repr

/-- `checker.WorkflowJob`: optional job name and id. -/
structure WorkflowJob where
  name : Option Str
  id : Option Str
deriving DecidableEq, Repr

/-- `checker.DangerousWorkflow`: one finding. -/
structure DangerousWorkflow where
  dtype : DangerousWorkflowType
  file : FileLoc
  job : Option WorkflowJob
deriving DecidableEq, Repr

/-- A step's execution kind (`actionlint.ExecAction` / `ExecRun`).
For an action step, `uses` is the nilable reference string
(`e.Uses`, dereferenced to its `.Value`) and `inputs` maps input names to
the nilable value string (`Input.Value`, dereferenced to `.Value`).
For a run step, `run` is the nilable script string together with the
line number of its position (`run.Run.Value`, `run.Run.Pos`). -/
inductive ExecT where
  | execAction (uses : Option Str) (inputs : List (Str × Option Str))
  | execRun (run : Option (Str × Nat))
deriving DecidableEq, Repr

/-- `actionlint.Step`: position (its line number) and execution kind. -/
structure StepModel where
  pos : Nat
  exec : Option ExecT
deriving DecidableEq, Repr

/-- `actionlint.Job`: nilable name and id strings and the step list;
step pointers may be nil. -/
structure JobModel where
  name : Option Str
  id : Option Str
  steps : List (Option StepModel)
deriving DecidableEq, Repr

/-- `actionlint.Workflow`: the trigger event names (`workflow.On`,
each event's `EventName()`) and the job list; job pointers may be nil.
(actionlint stores jobs in a map; the embedding fixes one iteration
order as a list.) -/
structure WorkflowModel where
  onEvents : List Str
  jobs : List (Option JobModel)
deriving DecidableEq, Repr

/-- Go map lookup `inputs[key]`: `none` when the key is absent. -/
def lookupInput : List (Str × Option Str) → Str → Option (Option Str)
  | [], _ => none
  | (k, v) :: rest, key => if k = key then some v else lookupInput rest key

def triggerPullRequestTarget : Str := "pull_request_target".toList
def triggerWorkflowRun : Str := "workflow_run".toList
def checkoutUntrustedPullRequestRef : Str := "github.event.pull_request".toList
def checkoutUntrustedWorkflowRunRef : Str := "github.event.workflow_run".toList

/-- Embedding of `createJob`. -/
def createJob : Option JobModel → Option WorkflowJob
  | none => none
  | some j => some ⟨j.name, j.id⟩

/-- Embedding of `usesEventTrigger`. -/
def usesEventTrigger (w : WorkflowModel) (name : Str) : Bool :=
  w.onEvents.any fun e => decide (e = name)

/-! ## Trigger & Checkout Analyzer -/

/-- The body of the step loop of `checkJobForUntrustedCodeCheckout`: the
findings one step contributes (empty on every `continue` path). -/
def checkoutStepFindings (j : JobModel) (path : Str) :
    Option StepModel → List DangerousWorkflow
  | none => []
  | some st =>
    match st.exec with
    | none => []
    | some (.execRun _) => []
    | some (.execAction none _) => []
    | some (.execAction (some u) inputs) =>
      if containsStr u "actions/checkout".toList then
        match lookupInput inputs "ref".toList with
        | none => []
        | some none => []
        | some (some refVal) =>
          if containsStr refVal checkoutUntrustedPullRequestRef ||
              containsStr refVal checkoutUntrustedWorkflowRunRef then
            [⟨.untrustedCheckout, ⟨path, st.pos, refVal⟩, createJob (some j)⟩]
          else []
      else []

/-- Embedding of `checkJobForUntrustedCodeCheckout` (the Go error result
is always nil, so the embedding returns the accumulator directly). -/
def checkJobForUntrustedCodeCheckout (job : Option JobModel) (path : Str)
    (acc : List DangerousWorkflow) : List DangerousWorkflow :=
  match job with
  | none => acc
  | some j => j.steps.foldl (fun a st => a ++ checkoutStepFindings j path st) acc

/-- Embedding of `validateUntrustedCodeCheckout`. -/
def validateUntrustedCodeCheckout (w : WorkflowModel) (path : Str)
    (acc : List DangerousWorkflow) : List DangerousWorkflow :=
  if !usesEventTrigger w triggerPullRequestTarget && !usesEventTrigger w triggerWorkflowRun then
    acc
  else
    w.jobs.foldl (fun a job => checkJobForUntrustedCodeCheckout job path a) acc

/-! ## Document-order normal forms and the untrusted-checkout claim -/

/-- Concatenation of per-element emission lists, in element order. -/
def concatMap {α β : Type} (f : α → List β) : List α → List β
  | [] => []
  | x :: xs => f x ++ concatMap f xs

theorem concatMap_congr {α β : Type} {f g : α → List β} (xs : List α)
    (h : ∀ x, f x = g x) : concatMap f xs = concatMap g xs := by
  induction xs with
  | nil => rfl
  | cons x xs ih => simp [concatMap, h x, ih]

/-- An append-accumulating left fold emits `acc ++` the concatenation of
the per-element lists, in element order. -/
theorem foldl_append_eq {α β : Type} (f : α → List β) (xs : List α)
    (acc : List β) :
    xs.foldl (fun a x => a ++ f x) acc = acc ++ concatMap f xs := by
  induction xs generalizing acc with
  | nil => simp [concatMap]
  | cons x xs ih => simp [concatMap, ih, List.append_assoc]

/-- Does the workflow declare a `pull_request_target` or `workflow_run`
trigger? -/
def hasDangerTrigger (w : WorkflowModel) : Bool :=
  usesEventTrigger w triggerPullRequestTarget || usesEventTrigger w triggerWorkflowRun

/-- Claim-side qualification of a step for an UntrustedCheckout finding,
returning the `ref` input's value when the step qualifies: an
action-reference step whose reference contains `actions/checkout`, whose
`ref` input is present with a value containing
`github.event.pull_request` or `github.event.workflow_run`. -/
def refOfQualifyingStep (st : StepModel) : Option Str :=
  match st.exec with
  | some (.execAction (some u) inputs) =>
    if containsStr u "actions/checkout".toList then
      match lookupInput inputs "ref".toList with
      | some (some rv) =>
        if containsStr rv "github.event.pull_request".toList ||
            containsStr rv "github.event.workflow_run".toList then some rv
        else none
      | _ => none
    else none
  | _ => none

/-- Claim-side per-step emission: exactly one finding, with snippet equal
to the ref value, for a qualifying step; none otherwise. -/
def untrustedStepSpec (j : JobModel) (path : Str) :
    Option StepModel → List DangerousWorkflow
  | none => []
  | some st =>
    match refOfQualifyingStep st with
    | some rv => [⟨.untrustedCheckout, ⟨path, st.pos, rv⟩, some ⟨j.name, j.id⟩⟩]
    | none => []

/-- Claim-side emission list of the whole untrusted-checkout analysis:
empty without a qualifying trigger, otherwise the per-step emissions in
job/step order. -/
def untrustedCheckoutSpec (w : WorkflowModel) (path : Str) : List DangerousWorkflow :=
  if hasDangerTrigger w then
    concatMap (fun job =>
      match job with
      | none => []
      | some j => concatMap (untrustedStepSpec j path) j.steps) w.jobs
  else []

/-- The claim's qualification condition, as a proposition. -/
def QualifiesUntrusted (st : StepModel) (rv : Str) : Prop :=
  ∃ u inputs,
    st.exec = some (.execAction (some u) inputs) ∧
    containsStr u "actions/checkout".toList = true ∧
    lookupInput inputs "ref".toList = some (some rv) ∧
    (containsStr rv "github.event.pull_request".toList = true ∨
      containsStr rv "github.event.workflow_run".toList = true)

theorem checkoutStepFindings_eq (j : JobModel) (path : Str)
    (ost : Option StepModel) :
    checkoutStepFindings j path ost = untrustedStepSpec j path ost := by
  rcases ost with _ | ⟨spos, sexec⟩
  · rfl
  · rcases sexec with _ | (⟨u, inputs⟩ | r)
    · rfl
    · rcases u with _ | u
      · rfl
      · simp only [checkoutStepFindings, untrustedStepSpec, refOfQualifyingStep, createJob,
          checkoutUntrustedPullRequestRef, checkoutUntrustedWorkflowRunRef]
        by_cases hc : containsStr u "actions/checkout".toList = true
        · simp only [hc, if_true]
          rcases hl : lookupInput inputs "ref".toList with _ | (_ | rv)
          · simp [hl]
          · simp [hl]
          · simp only [hl]
            split_ifs with hor <;> simp
        · simp only [Bool.not_eq_true] at hc
          simp at hc
          simp [hc]
    · rfl

theorem checkJob_untrusted_eq (job : Option JobModel) (path : Str)
    (acc : List DangerousWorkflow) :
    checkJobForUntrustedCodeCheckout job path acc =
      acc ++ (match job with
        | none => []
        | some j => concatMap (untrustedStepSpec j path) j.steps) := by
  rcases job with _ | j
  · simp [checkJobForUntrustedCodeCheckout]
  · simp only [checkJobForUntrustedCodeCheckout]
    rw [foldl_append_eq]
    rw [concatMap_congr j.steps (checkoutStepFindings_eq j path)]

theorem validateUntrustedCodeCheckout_eq (w : WorkflowModel) (path : Str)
    (acc : List DangerousWorkflow) :
    validateUntrustedCodeCheckout w path acc = acc ++ untrustedCheckoutSpec w path := by
  unfold validateUntrustedCodeCheckout untrustedCheckoutSpec
  by_cases hd : hasDangerTrigger w = true
  · have : (!usesEventTrigger w triggerPullRequestTarget &&
        !usesEventTrigger w triggerWorkflowRun) = false := by
      unfold hasDangerTrigger at hd
      rcases Bool.or_eq_true _ _ |>.mp hd with h | h <;> simp [h]
    rw [this, if_neg (by simp), hd, if_pos rfl]
    induction w.jobs generalizing acc with
    | nil => simp [concatMap]
    | cons job jobs ih =>
      simp only [List.foldl_cons, concatMap]
      rw [ih (checkJobForUntrustedCodeCheckout job path acc),
        checkJob_untrusted_eq, List.append_assoc]
  · simp only [Bool.not_eq_true] at hd
    have : (!usesEventTrigger w triggerPullRequestTarget &&
        !usesEventTrigger w triggerWorkflowRun) = true := by
      unfold hasDangerTrigger at hd
      rcases Bool.or_eq_false_iff.mp hd with ⟨h1, h2⟩
      simp [h1, h2]
    rw [this, if_pos rfl, hd]
    simp

theorem refOfQualifyingStep_iff (st : StepModel) (rv : Str) :
    refOfQualifyingStep st = some rv ↔ QualifiesUntrusted st rv := by
  constructor
  · intro h
    unfold refOfQualifyingStep at h
    split at h
    next u inputs hex =>
      split at h
      next hc =>
        split at h
        next rv' hl =>
          split at h
          next hor =>
            injection h with h'
            subst h'
            exact ⟨u, inputs, hex, hc, hl, by simpa using hor⟩
          next => cases h
        next => cases h
      next => cases h
    next => cases h
  · rintro ⟨u, inputs, hex, hc, hl, hor⟩
    unfold refOfQualifyingStep
    rw [hex]
    simp at hc hl
    rcases hor with h1 | h1 <;> simp at h1 <;> simp [hc, hl, h1]

/-- **C2.** The untrusted-checkout analysis appends, to the accumulator,
exactly one finding per qualifying step (snippet = the `ref` value) in
job/step order when a `pull_request_target` or `workflow_run` trigger is
declared, and nothing otherwise; a step qualifies exactly under the
claim's conditions. -/
theorem claim_C2_untrusted_checkout :
    (∀ (w : WorkflowModel) (path : Str) (acc : List DangerousWorkflow),
      validateUntrustedCodeCheckout w path acc = acc ++ untrustedCheckoutSpec w path) ∧
    (∀ (st : StepModel) (rv : Str),
      refOfQualifyingStep st = some rv ↔ QualifiesUntrusted st rv) :=
  ⟨validateUntrustedCodeCheckout_eq, refOfQualifyingStep_iff⟩

/-- Concrete example workflow for witnesses: a `pull_request_target`
workflow with one job whose single step checks out an untrusted ref. -/
def exCheckoutStep : StepModel :=
  ⟨7, some (.execAction (some "actions/checkout@abc".toList)
    [("ref".toList, some "github.event.pull_request.head.sha".toList)])⟩

def exCheckoutJob : JobModel := ⟨none, some "build".toList, [some exCheckoutStep]⟩

def exCheckoutWorkflow : WorkflowModel :=
  ⟨[triggerPullRequestTarget], [some exCheckoutJob]⟩

/-- Witness for C2 at a concrete workflow. -/
theorem claim_C2_untrusted_checkout_witness :
    validateUntrustedCodeCheckout exCheckoutWorkflow "wf.yml".toList [] =
      [⟨.untrustedCheckout,
        ⟨"wf.yml".toList, 7, "github.event.pull_request.head.sha".toList⟩,
        some ⟨none, some "build".toList⟩⟩] ∧
    QualifiesUntrusted exCheckoutStep "github.event.pull_request.head.sha".toList := by
  constructor
  · rw [claim_C2_untrusted_checkout.1 exCheckoutWorkflow "wf.yml".toList []]
    decide
  · exact (claim_C2_untrusted_checkout.2 exCheckoutStep
      "github.event.pull_request.head.sha".toList).mp (by decide)

/-! ## Script Injection Scanner -/

/-- Errors of the embedded code: the malformed-workflow internal error of
`checkVariablesInScript`, the malformed-reference error of
`validateImposterCommits`, and opaque collaborator (client) errors. -/
inductive GoErr where
  | invalidWorkflow
  | unexpectedReference (ref : Str)
  | client (code : Nat)
deriving DecidableEq, Repr

/-- The opening expression delimiter. -/
def openDelim : Str := ['$', '\x7b', '\x7b']

/-- The closing expression delimiter. -/
def closeDelim : Str := ['\x7d', '\x7d']

/-- No string position starts with both delimiters. -/
theorem not_open_and_close {t : Str} (ho : leadsWith openDelim t = true)
    (hc : leadsWith closeDelim t = true) : False := by
  cases t with
  | nil => simp [openDelim] at ho
  | cons c cs =>
    have h1 : '$' = c := head_eq_of_leadsWith ho
    have h2 : '\x7d' = c := head_eq_of_leadsWith hc
    exact absurd (h1.trans h2.symm) (by decide)

theorem one_le_open_close_sum {script : Str} {s e : Nat}
    (hs : strIndex openDelim script = some s)
    (he : strIndex closeDelim (script.drop s) = some e) : 1 ≤ s + e := by
  by_contra h
  have hs0 : s = 0 := by omega
  have he0 : e = 0 := by omega
  subst hs0 he0
  have ho := leadsWith_drop_of_strIndex hs
  have hcl := leadsWith_drop_of_strIndex he
  simp only [List.drop_zero] at ho hcl
  exact not_open_and_close ho hcl

theorem script_pos_of_strIndex_open {script : Str} {s : Nat}
    (hs : strIndex openDelim script = some s) : 0 < script.length :=
  Nat.lt_of_le_of_lt (Nat.zero_le s) (strIndex_lt_length (by decide) hs)

/-- Embedding of `checkVariablesInScript`.  The Go loop mutates `script`
and appends findings to the shared `pdata.Workflows`; the embedding
threads both explicitly.  On the unterminated-delimiter error the
accumulator as mutated so far is kept (Go's `pdata` mutations survive the
error return). -/
def checkVariablesInScript (script : Str) (pos : Nat) (jobM : Option JobModel)
    (path : Str) (acc : List DangerousWorkflow) :
    List DangerousWorkflow × Option GoErr :=
  match hs : strIndex openDelim script with
  | none => (acc, none)
  | some s =>
    match he : strIndex closeDelim (script.drop s) with
    | none => (acc, some .invalidWorkflow)
    | some e =>
      let v := (script.drop (s + 3)).take (e - 3)
      let acc2 :=
        if containsUntrustedContextPattern v then
          acc ++ [⟨.scriptInjection, ⟨path, pos, v⟩, createJob jobM⟩]
        else acc
      checkVariablesInScript (script.drop (s + e)) pos jobM path acc2
termination_by script.length
decreasing_by
  have h1 := one_le_open_close_sum hs he
  have h2 := script_pos_of_strIndex_open hs
  simp only [List.length_drop]
  omega

/-- The candidate-expression extraction underlying
`checkVariablesInScript`: the same scan, recording every extracted
expression in order instead of filtering and appending findings. -/
def scanExprs (script : Str) : List Str × Option GoErr :=
  match hs : strIndex openDelim script with
  | none => ([], none)
  | some s =>
    match he : strIndex closeDelim (script.drop s) with
    | none => ([], some .invalidWorkflow)
    | some e =>
      let r := scanExprs (script.drop (s + e))
      (((script.drop (s + 3)).take (e - 3)) :: r.1, r.2)
termination_by script.length
decreasing_by
  have h1 := one_le_open_close_sum hs he
  have h2 := script_pos_of_strIndex_open hs
  simp only [List.length_drop]
  omega

/-- The finding built from one risky expression of an inline script. -/
def mkScriptFinding (path : Str) (pos : Nat) (jobM : Option JobModel)
    (v : Str) : DangerousWorkflow :=
  ⟨.scriptInjection, ⟨path, pos, v⟩, createJob jobM⟩

theorem checkVariablesInScript_eqn_none {script : Str} {pos : Nat}
    {jobM : Option JobModel} {path : Str} {acc : List DangerousWorkflow}
    (hs : strIndex openDelim script = none) :
    checkVariablesInScript script pos jobM path acc = (acc, none) := by
  rw [checkVariablesInScript]
  split
  · rfl
  next s h1 =>
    rw [hs] at h1
    exact Option.noConfusion h1

theorem checkVariablesInScript_eqn_err {script : Str} {pos : Nat}
    {jobM : Option JobModel} {path : Str} {acc : List DangerousWorkflow} {s : Nat}
    (hs : strIndex openDelim script = some s)
    (he : strIndex closeDelim (script.drop s) = none) :
    checkVariablesInScript script pos jobM path acc = (acc, some .invalidWorkflow) := by
  rw [checkVariablesInScript]
  split
  next h1 => rw [hs] at h1; exact Option.noConfusion h1
  next s' h1 =>
    rw [hs] at h1
    injection h1 with h1'
    subst h1'
    split
    · rfl
    next e h2 => rw [he] at h2; exact Option.noConfusion h2

theorem checkVariablesInScript_eqn_step {script : Str} {pos : Nat}
    {jobM : Option JobModel} {path : Str} {acc : List DangerousWorkflow} {s e : Nat}
    (hs : strIndex openDelim script = some s)
    (he : strIndex closeDelim (script.drop s) = some e) :
    checkVariablesInScript script pos jobM path acc =
      checkVariablesInScript (script.drop (s + e)) pos jobM path
        (if containsUntrustedContextPattern ((script.drop (s + 3)).take (e - 3)) then
          acc ++ [⟨.scriptInjection, ⟨path, pos, (script.drop (s + 3)).take (e - 3)⟩,
            createJob jobM⟩]
        else acc) := by
  conv_lhs => rw [checkVariablesInScript]
  split
  next h1 => rw [hs] at h1; exact Option.noConfusion h1
  next s' h1 =>
    rw [hs] at h1
    injection h1 with h1'
    subst h1'
    split
    next h2 => rw [he] at h2; exact Option.noConfusion h2
    next e' h2 =>
      rw [he] at h2
      injection h2 with h2'
      subst h2'
      rfl

theorem scanExprs_eqn_none {script : Str}
    (hs : strIndex openDelim script = none) : scanExprs script = ([], none) := by
  rw [scanExprs]
  split
  · rfl
  next s h1 =>
    rw [hs] at h1
    exact Option.noConfusion h1

theorem scanExprs_eqn_err {script : Str} {s : Nat}
    (hs : strIndex openDelim script = some s)
    (he : strIndex closeDelim (script.drop s) = none) :
    scanExprs script = ([], some .invalidWorkflow) := by
  rw [scanExprs]
  split
  next h1 => rw [hs] at h1; exact Option.noConfusion h1
  next s' h1 =>
    rw [hs] at h1
    injection h1 with h1'
    subst h1'
    split
    · rfl
    next e h2 => rw [he] at h2; exact Option.noConfusion h2

theorem scanExprs_eqn_step {script : Str} {s e : Nat}
    (hs : strIndex openDelim script = some s)
    (he : strIndex closeDelim (script.drop s) = some e) :
    scanExprs script =
      (((script.drop (s + 3)).take (e - 3)) :: (scanExprs (script.drop (s + e))).1,
        (scanExprs (script.drop (s + e))).2) := by
  conv_lhs => rw [scanExprs]
  split
  next h1 => rw [hs] at h1; exact Option.noConfusion h1
  next s' h1 =>
    rw [hs] at h1
    injection h1 with h1'
    subst h1'
    split
    next h2 => rw [he] at h2; exact Option.noConfusion h2
    next e' h2 =>
      rw [he] at h2
      injection h2 with h2'
      subst h2'
      rfl

/-- `checkVariablesInScript` appends exactly the findings of the risky
extracted expressions, in extraction order, and errs exactly when the
extraction errs. -/
theorem checkVariablesInScript_factor (script : Str) (pos : Nat)
    (jobM : Option JobModel) (path : Str) (acc : List DangerousWorkflow) :
    checkVariablesInScript script pos jobM path acc =
      (acc ++ ((scanExprs script).1.filter containsUntrustedContextPattern).map
        (mkScriptFinding path pos jobM), (scanExprs script).2) := by
  have main : ∀ (n : Nat) (script : Str), script.length = n →
      ∀ (pos : Nat) (jobM : Option JobModel) (path : Str) (acc : List DangerousWorkflow),
      checkVariablesInScript script pos jobM path acc =
        (acc ++ ((scanExprs script).1.filter containsUntrustedContextPattern).map
          (mkScriptFinding path pos jobM), (scanExprs script).2) := by
    intro n
    induction n using Nat.strong_induction_on with
    | _ n ih =>
      intro script hlen pos jobM path acc
      cases hs : strIndex openDelim script with
      | none =>
        rw [checkVariablesInScript_eqn_none hs, scanExprs_eqn_none hs]
        simp
      | some s =>
        cases he : strIndex closeDelim (script.drop s) with
        | none =>
          rw [checkVariablesInScript_eqn_err hs he, scanExprs_eqn_err hs he]
          simp
        | some e =>
          have hdec : (script.drop (s + e)).length < n := by
            have h1 := one_le_open_close_sum hs he
            have h2 := script_pos_of_strIndex_open hs
            simp only [List.length_drop]
            omega
          rw [checkVariablesInScript_eqn_step hs he, scanExprs_eqn_step hs he,
            ih _ hdec (script.drop (s + e)) rfl]
          by_cases hrisk : containsUntrustedContextPattern
              ((script.drop (s + 3)).take (e - 3)) = true
          · simp [hrisk, mkScriptFinding, List.append_assoc]
          · simp only [Bool.not_eq_true] at hrisk
            simp [hrisk, mkScriptFinding]
  exact main script.length script rfl pos jobM path acc

/-- Step loop of `validateScriptInjection` over one job's steps: nil
steps, non-run steps and run steps with nil script are skipped; an error
from `checkVariablesInScript` propagates immediately (keeping the
accumulator mutations made so far). -/
def scriptSteps (path : Str) (j : JobModel) :
    List (Option StepModel) → List DangerousWorkflow →
      List DangerousWorkflow × Option GoErr
  | [], acc => (acc, none)
  | none :: rest, acc => scriptSteps path j rest acc
  | some stv :: rest, acc =>
    match stv.exec with
    | some (.execRun (some (body, rpos))) =>
      match checkVariablesInScript body rpos (some j) path acc with
      | (acc2, none) => scriptSteps path j rest acc2
      | (acc2, some e) => (acc2, some e)
    | _ => scriptSteps path j rest acc

/-- Job loop of `validateScriptInjection`: nil jobs are skipped. -/
def scriptJobs (path : Str) :
    List (Option JobModel) → List DangerousWorkflow →
      List DangerousWorkflow × Option GoErr
  | [], acc => (acc, none)
  | none :: rest, acc => scriptJobs path rest acc
  | some j :: rest, acc =>
    match scriptSteps path j j.steps acc with
    | (a2, none) => scriptJobs path rest a2
    | (a2, some e) => (a2, some e)

/-- Embedding of `validateScriptInjection`. -/
def validateScriptInjection (w : WorkflowModel) (path : Str)
    (acc : List DangerousWorkflow) : List DangerousWorkflow × Option GoErr :=
  scriptJobs path w.jobs acc

/-! ## The reference extraction algorithm and script well-formedness -/

/-- The spec's reference extraction algorithm: find the next `${{`, find
the next `}}` strictly after it, take the substring strictly between the
delimiters, advance the cursor to just past the closing `}}`, repeat;
non-overlapping, left to right. -/
def refScan (scr : Str) : List Str :=
  match hs : strIndex openDelim scr with
  | none => []
  | some s =>
    match strIndex closeDelim (scr.drop (s + 3)) with
    | none => []
    | some e => ((scr.drop (s + 3)).take e) :: refScan (scr.drop (s + 3 + e + 2))
termination_by scr.length
decreasing_by
  have h2 := script_pos_of_strIndex_open hs
  simp only [List.length_drop]
  omega

theorem refScan_eqn_none {scr : Str} (hs : strIndex openDelim scr = none) :
    refScan scr = [] := by
  rw [refScan]
  split
  · rfl
  next s h1 =>
    rw [hs] at h1
    exact Option.noConfusion h1

theorem refScan_eqn_step {scr : Str} {s e : Nat}
    (hs : strIndex openDelim scr = some s)
    (he : strIndex closeDelim (scr.drop (s + 3)) = some e) :
    refScan scr = ((scr.drop (s + 3)).take e) :: refScan (scr.drop (s + 3 + e + 2)) := by
  conv_lhs => rw [refScan]
  split
  next h1 => rw [hs] at h1; exact Option.noConfusion h1
  next s' h1 =>
    rw [hs] at h1
    injection h1 with h1'
    subst h1'
    rw [he]

/-- Is `}}` found at some position of the string? -/
def hasCloseSub : Str → Bool
  | [] => false
  | c :: rest => leadsWith closeDelim (c :: rest) || hasCloseSub rest

/-- Well-formed script: every occurrence of `${{` is followed by a later
`}}`. -/
def wfScript : Str → Bool
  | [] => true
  | c :: rest => (!leadsWith openDelim (c :: rest) || hasCloseSub rest) && wfScript rest

/-- Does the script contain a `${{` with no `}}` occurring after it? -/
def hasBadOpen : Str → Bool
  | [] => false
  | c :: rest => (leadsWith openDelim (c :: rest) && !hasCloseSub rest) || hasBadOpen rest

theorem leadsWith_drop_of_hasCloseSub {t : Str} (h : hasCloseSub t = true) :
    ∃ k, leadsWith closeDelim (t.drop k) = true := by
  induction t with
  | nil => simp [hasCloseSub] at h
  | cons c rest ih =>
    rw [hasCloseSub, Bool.or_eq_true] at h
    rcases h with h | h
    · exact ⟨0, by simpa using h⟩
    · obtain ⟨k, hk⟩ := ih h
      exact ⟨k + 1, by simpa using hk⟩

theorem not_leadsWith_drop_of_not_hasCloseSub {t : Str} (h : hasCloseSub t = false) :
    ∀ k, leadsWith closeDelim (t.drop k) = false := by
  induction t with
  | nil =>
    intro k
    simp [closeDelim]
  | cons c rest ih =>
    rw [hasCloseSub, Bool.or_eq_false_iff] at h
    intro k
    cases k with
    | zero => simpa using h.1
    | succ k' => simpa using ih h.2 k'

theorem wfScript_tail {c : Char} {rest : Str} (h : wfScript (c :: rest) = true) :
    wfScript rest = true := by
  rw [wfScript, Bool.and_eq_true] at h
  exact h.2

theorem wfScript_drop {scr : Str} (h : wfScript scr = true) (m : Nat) :
    wfScript (scr.drop m) = true := by
  induction m generalizing scr with
  | zero => simpa using h
  | succ m' ih =>
    cases scr with
    | nil => simpa using h
    | cons c rest =>
      rw [List.drop_succ_cons]
      exact ih (wfScript_tail h)

/-- In a well-formed script, every position bearing `${{` has a strictly
later position bearing `}}`. -/
theorem wfScript_spec {scr : Str} (h : wfScript scr = true) :
    ∀ i, leadsWith openDelim (scr.drop i) = true →
      ∃ j, i < j ∧ leadsWith closeDelim (scr.drop j) = true := by
  induction scr with
  | nil =>
    intro i hi
    simp [openDelim] at hi
  | cons c rest ih =>
    rw [wfScript, Bool.and_eq_true] at h
    intro i hi
    cases i with
    | zero =>
      simp only [List.drop_zero] at hi
      rcases Bool.or_eq_true _ _ |>.mp h.1 with h1 | h1
      · rw [hi] at h1
        simp at h1
      · obtain ⟨k, hk⟩ := leadsWith_drop_of_hasCloseSub h1
        exact ⟨k + 1, Nat.succ_pos k, by simpa using hk⟩
    | succ i' =>
      simp only [List.drop_succ_cons] at hi
      obtain ⟨j, hj, hjl⟩ := ih h.2 i' hi
      exact ⟨j + 1, Nat.succ_lt_succ hj, by simpa using hjl⟩

/-- A bad open: some position bears `${{` and no strictly later position
bears `}}`. -/
theorem hasBadOpen_spec {scr : Str} (h : hasBadOpen scr = true) :
    ∃ i, leadsWith openDelim (scr.drop i) = true ∧
      ∀ j, i < j → leadsWith closeDelim (scr.drop j) = false := by
  induction scr with
  | nil => simp [hasBadOpen] at h
  | cons c rest ih =>
    rw [hasBadOpen, Bool.or_eq_true] at h
    rcases h with h | h
    · rw [Bool.and_eq_true] at h
      refine ⟨0, by simpa using h.1, ?_⟩
      intro j hj
      cases j with
      | zero => omega
      | succ j' =>
        rw [List.drop_succ_cons]
        exact not_leadsWith_drop_of_not_hasCloseSub (by simpa using h.2) j'
    · obtain ⟨i, hi, hbad⟩ := ih h
      refine ⟨i + 1, by simpa using hi, ?_⟩
      intro j hj
      cases j with
      | zero => omega
      | succ j' =>
        rw [List.drop_succ_cons]
        exact hbad j' (by omega)

theorem leadsWith_false_of_head_ne {p c : Char} {ps cs : Str} (h : p ≠ c) :
    leadsWith (p :: ps) (c :: cs) = false := by
  rw [leadsWith_cons_cons, if_neg h]

theorem open_struct {u : Str} (h : leadsWith openDelim u = true) :
    u = '$' :: '\x7b' :: '\x7b' :: u.drop 3 := by
  obtain ⟨t, ht⟩ := eq_append_of_leadsWith h
  rw [ht]
  rfl

theorem close_struct {u : Str} (h : leadsWith closeDelim u = true) :
    u = '\x7d' :: '\x7d' :: u.drop 2 := by
  obtain ⟨t, ht⟩ := eq_append_of_leadsWith h
  rw [ht]
  rfl

theorem strIndex_cons_shift {pat : Str} {c : Char} {rest : Str}
    (h : leadsWith pat (c :: rest) = false) :
    strIndex pat (c :: rest) = (strIndex pat rest).map (fun n => n + 1) := by
  rw [strIndex_cons, if_neg (by simp [h])]

theorem leadsWith_close_dollar (cs : Str) : leadsWith closeDelim ('$' :: cs) = false :=
  leadsWith_false_of_head_ne (by decide)

theorem leadsWith_close_lbrace (cs : Str) : leadsWith closeDelim ('\x7b' :: cs) = false :=
  leadsWith_false_of_head_ne (by decide)

theorem leadsWith_open_rbrace (cs : Str) : leadsWith openDelim ('\x7d' :: cs) = false :=
  leadsWith_false_of_head_ne (by decide)

/-- Searching `}}` from an occurrence of `${{` never matches inside the
opening delimiter: the found index decomposes as `3 +` the index found
from just after the opening delimiter. -/
theorem strIndex_close_over_open {scr : Str} {s : Nat}
    (hs : strIndex openDelim scr = some s) :
    strIndex closeDelim (scr.drop s) =
      (strIndex closeDelim (scr.drop (s + 3))).map (fun n => n + 3) := by
  have ho := leadsWith_drop_of_strIndex hs
  have hstruct := open_struct ho
  have hd3 : (scr.drop s).drop 3 = scr.drop (s + 3) := by rw [List.drop_drop]
  rw [hstruct, hd3]
  rw [strIndex_cons_shift (leadsWith_close_dollar _),
    strIndex_cons_shift (leadsWith_close_lbrace _),
    strIndex_cons_shift (leadsWith_close_lbrace _)]
  cases strIndex closeDelim (scr.drop (s + 3)) <;> simp

/-- Prepending a character that does not begin `${{` does not change the
extraction. -/
theorem scanExprs_cons_shift {c : Char} {u : Str}
    (h : leadsWith openDelim (c :: u) = false) :
    scanExprs (c :: u) = scanExprs u := by
  cases hs : strIndex openDelim u with
  | none =>
    have hcs : strIndex openDelim (c :: u) = none := by
      rw [strIndex_cons_shift h, hs]
      rfl
    rw [scanExprs_eqn_none hcs, scanExprs_eqn_none hs]
  | some s =>
    have hcs : strIndex openDelim (c :: u) = some (s + 1) := by
      rw [strIndex_cons_shift h, hs]
      rfl
    have hdrop : (c :: u).drop (s + 1) = u.drop s := List.drop_succ_cons
    cases he : strIndex closeDelim (u.drop s) with
    | none =>
      rw [scanExprs_eqn_err hcs (by rw [hdrop]; exact he), scanExprs_eqn_err hs he]
    | some e =>
      rw [scanExprs_eqn_step hcs (by rw [hdrop]; exact he), scanExprs_eqn_step hs he]
      have h1 : (c :: u).drop (s + 1 + 3) = u.drop (s + 3) := by
        have hx : s + 1 + 3 = (s + 3) + 1 := by omega
        rw [hx, List.drop_succ_cons]
      have h2 : (c :: u).drop (s + 1 + e) = u.drop (s + e) := by
        have hx : s + 1 + e = (s + e) + 1 := by omega
        rw [hx, List.drop_succ_cons]
      rw [h1, h2]

/-- **C8.** For every script body in which every `${{` is followed by a
later `}}`, the scanner's extraction succeeds and its ordered candidate
list equals the spec's reference algorithm. -/
theorem claim_C8_scanner_refinement (scr : Str) (h : wfScript scr = true) :
    scanExprs scr = (refScan scr, none) := by
  have main : ∀ (n : Nat) (scr : Str), scr.length = n → wfScript scr = true →
      scanExprs scr = (refScan scr, none) := by
    intro n
    induction n using Nat.strong_induction_on with
    | _ n ih =>
      intro scr hlen hwf
      cases hs : strIndex openDelim scr with
      | none => rw [scanExprs_eqn_none hs, refScan_eqn_none hs]
      | some s =>
        have ho := leadsWith_drop_of_strIndex hs
        obtain ⟨j, hj, hjl⟩ := wfScript_spec hwf s ho
        have hjd : (scr.drop s).drop (j - s) = scr.drop j := by
          rw [List.drop_drop]
          congr 1
          omega
        obtain ⟨e, he, _⟩ := strIndex_le_of_leadsWith_drop
          (show leadsWith closeDelim ((scr.drop s).drop (j - s)) = true by
            rw [hjd]; exact hjl)
        have hsplit := strIndex_close_over_open hs
        rw [he] at hsplit
        cases he3 : strIndex closeDelim (scr.drop (s + 3)) with
        | none =>
          rw [he3] at hsplit
          simp at hsplit
        | some e' =>
          rw [he3] at hsplit
          simp only [Option.map_some'] at hsplit
          injection hsplit with hsplit'
          subst hsplit'
          rw [scanExprs_eqn_step hs he, refScan_eqn_step hs he3]
          have hcl : leadsWith closeDelim (scr.drop (s + 3 + e')) = true := by
            have h0 := leadsWith_drop_of_strIndex he3
            have hd1 : (scr.drop (s + 3)).drop e' = scr.drop (s + 3 + e') := by
              rw [List.drop_drop]
            rw [hd1] at h0
            exact h0
          have hstruct := close_struct hcl
          have hd2 : (scr.drop (s + 3 + e')).drop 2 = scr.drop (s + 3 + e' + 2) := by
            rw [List.drop_drop]
          rw [hd2] at hstruct
          have hidx : s + (e' + 3) = s + 3 + e' := by omega
          rw [hidx, hstruct,
            scanExprs_cons_shift (leadsWith_open_rbrace _),
            scanExprs_cons_shift (leadsWith_open_rbrace _)]
          have hlt : (scr.drop (s + 3 + e' + 2)).length < n := by
            have h2 := script_pos_of_strIndex_open hs
            simp only [List.length_drop]
            omega
          rw [ih _ hlt (scr.drop (s + 3 + e' + 2)) rfl (wfScript_drop hwf _)]
          have hx : e' + 3 - 3 = e' := by omega
          rw [hx]
  exact main scr.length scr rfl h

/-- Concrete well-formed script for the C8 witness:
`${{a}}x${{b}}`. -/
def exScr : Str :=
  openDelim ++ "a".toList ++ closeDelim ++ "x".toList ++
    openDelim ++ "b".toList ++ closeDelim

/-- Witness for C8 at a concrete script. -/
theorem claim_C8_witness :
    wfScript exScr = true ∧ scanExprs exScr = (refScan exScr, none) :=
  ⟨by decide, claim_C8_scanner_refinement exScr (by decide)⟩

/-- When some `${{` has no later `}}`, the extraction fails with the
malformed-workflow error. -/
theorem scanExprs_err_of_badOpen (scr : Str)
    (h : ∃ i, leadsWith openDelim (scr.drop i) = true ∧
      ∀ j, i < j → leadsWith closeDelim (scr.drop j) = false) :
    (scanExprs scr).2 = some .invalidWorkflow := by
  have main : ∀ (n : Nat) (scr : Str), scr.length = n →
      (∃ i, leadsWith openDelim (scr.drop i) = true ∧
        ∀ j, i < j → leadsWith closeDelim (scr.drop j) = false) →
      (scanExprs scr).2 = some .invalidWorkflow := by
    intro n
    induction n using Nat.strong_induction_on with
    | _ n ih =>
      rintro scr hlen ⟨i, hoi, hbad⟩
      obtain ⟨s, hs, hsle⟩ := strIndex_le_of_leadsWith_drop hoi
      cases he : strIndex closeDelim (scr.drop s) with
      | none => rw [scanExprs_eqn_err hs he]
      | some e =>
        have hcl : leadsWith closeDelim (scr.drop (s + e)) = true := by
          have h0 := leadsWith_drop_of_strIndex he
          rw [List.drop_drop] at h0
          exact h0
        have hslt : s + e < i := by
          rcases Nat.lt_trichotomy (s + e) i with hlt | heq | hgt
          · exact hlt
          · subst heq
            exact (not_open_and_close hoi hcl).elim
          · rw [hbad (s + e) hgt] at hcl
            exact Bool.noConfusion hcl
        rw [scanExprs_eqn_step hs he]
        simp only []
        have hlt : (scr.drop (s + e)).length < n := by
          have h1 := one_le_open_close_sum hs he
          have h2 := script_pos_of_strIndex_open hs
          simp only [List.length_drop]
          omega
        refine ih _ hlt (scr.drop (s + e)) rfl ⟨i - (s + e), ?_, ?_⟩
        · rw [List.drop_drop]
          have hx : s + e + (i - (s + e)) = i := by omega
          rw [hx]
          exact hoi
        · intro j hj
          rw [List.drop_drop]
          exact hbad (s + e + j) (by omega)
  exact main scr.length scr rfl h

/-- **C4 (amended).** On a script containing a `${{` with no later `}}`,
the step's analysis fails with the malformed-syntax error; the
accumulator keeps its previous findings and gains exactly the findings
of the risky expressions completely extracted before the failure (none
from the unterminated opening onward). -/
theorem claim_C4_amended (scr : Str) (pos : Nat) (jobM : Option JobModel)
    (path : Str) (acc : List DangerousWorkflow) (h : hasBadOpen scr = true) :
    (checkVariablesInScript scr pos jobM path acc).2 = some .invalidWorkflow ∧
    (checkVariablesInScript scr pos jobM path acc).1 =
      acc ++ ((scanExprs scr).1.filter containsUntrustedContextPattern).map
        (mkScriptFinding path pos jobM) := by
  rw [checkVariablesInScript_factor]
  exact ⟨scanExprs_err_of_badOpen scr (hasBadOpen_spec h), rfl⟩

/-- Witness for the amended C4 on a concrete unterminated script. -/
theorem claim_C4_amended_witness :
    (checkVariablesInScript (openDelim ++ "x".toList) 1 none [] []).2 =
      some GoErr.invalidWorkflow :=
  (claim_C4_amended _ 1 none [] [] (by decide)).1

/-- Concrete script for the C4 counterexample:
`${{github.head_ref}}${{` — it contains an unterminated `${{`, yet the
analysis appends one finding (for the complete risky expression scanned
first) before failing. -/
def cex4Script : Str :=
  openDelim ++ "github.head_ref".toList ++ closeDelim ++ openDelim

/-- **C4 counterexample.**  The script `${{github.head_ref}}${{`
contains a `${{` with no later `}}`, and its analysis fails with the
malformed-syntax error — but one finding is appended, not zero: the
accumulator changes from `[]` to a one-element list. -/
theorem claim_C4_counterexample :
    hasBadOpen cex4Script = true ∧
    checkVariablesInScript cex4Script 5 none "w.yml".toList [] =
      ([⟨.scriptInjection, ⟨"w.yml".toList, 5, "github.head_ref".toList⟩, none⟩],
        some .invalidWorkflow) := by
  refine ⟨by decide, ?_⟩
  have h1 : strIndex openDelim cex4Script = some 0 := by decide
  have h2 : strIndex closeDelim (cex4Script.drop 0) = some 18 := by decide
  rw [checkVariablesInScript_eqn_step h1 h2]
  have h3 : strIndex openDelim (cex4Script.drop (0 + 18)) = some 2 := by decide
  have h4 : strIndex closeDelim ((cex4Script.drop (0 + 18)).drop 2) = none := by decide
  rw [checkVariablesInScript_eqn_err h3 h4]
  decide

/-! ## Cross-Repo Reachability Cache and Imposter Commit Detector

The remote repository client is modelled as a deterministic `Backend` of
fallible operations, keyed by the referenced repository identifier.
Operations return Go-style `(value, error)` pairs.  All embedded
functions additionally return the number of backend operations invoked,
so that "issues no remote call" is statable. -/

/-- The collaborator operations used by the imposter-commit check:
`githubrepo.MakeGithubRepo`, `RepoClient.NewClient`, and the
sub-client's `ListBranches` / `ListTags` (as their ref name lists) and
`ContainsRevision refName target`. -/
structure Backend where
  makeRepo : Str → Option GoErr
  newClient : Str → Option GoErr
  listBranches : Str → List Str × Option GoErr
  listTags : Str → List Str × Option GoErr
  containsRevision : Str → Str → Str → Bool × Option GoErr

/-- Outcome of the branch/tag loops inside `checkImposterCommit`. -/
inductive LoopRes where
  | found
  | notFound
  | errored (e : GoErr)
deriving DecidableEq, Repr

/-- One `for … ContainsRevision` loop of `checkImposterCommit`: per ref
name, an error returns immediately (Go `return false, err`), a positive
result returns immediately (Go `return true, nil`). -/
def containsRevLoop (b : Backend) (repo : Str) (pfx : Str) (target : Str) :
    List Str → LoopRes × Nat
  | [] => (.notFound, 0)
  | nm :: rest =>
    match b.containsRevision repo (pfx ++ nm) target with
    | (_, some e) => (.errored e, 1)
    | (true, none) => (.found, 1)
    | (false, none) =>
      let r := containsRevLoop b repo pfx target rest
      (r.1, r.2 + 1)

/-- Embedding of `checkImposterCommit`: branches first, then tags; every
error path returns `(false, err)`. -/
def checkImposterCommit (b : Backend) (repo target : Str) :
    Bool × Option GoErr × Nat :=
  match b.listBranches repo with
  | (_, some e) => (false, some e, 1)
  | (branches, none) =>
    match containsRevLoop b repo "refs/heads/".toList target branches with
    | (.errored e, k) => (false, some e, 1 + k)
    | (.found, k) => (true, none, 1 + k)
    | (.notFound, k) =>
      match b.listTags repo with
      | (_, some e) => (false, some e, 1 + k + 1)
      | (tags, none) =>
        match containsRevLoop b repo "refs/tags/".toList target tags with
        | (.errored e, k2) => (false, some e, 1 + k + 1 + k2)
        | (.found, k2) => (true, none, 1 + k + 1 + k2)
        | (.notFound, k2) => (false, none, 1 + k + 1 + k2)

/-- The cache map of `containsCache`, keyed by (repo, sha). -/
abbrev Cache := List ((Str × Str) × Bool)

/-- Go map lookup on the cache. -/
def cacheLookup : Cache → Str × Str → Option Bool
  | [], _ => none
  | (k, v) :: rest, key => if k = key then some v else cacheLookup rest key

/-- Embedding of `containsCache.Contains`.  On a hit the cached value is
returned with no backend call.  On a miss a client is constructed and
`checkImposterCommit` is run; note the Go code executes
`c.cache[key] = out` *before* looking at the error, so on a
`checkImposterCommit` error the (always-false) result is still written
to the cache. -/
def cacheContains (b : Backend) (c : Cache) (repo sha : Str) :
    (Bool × Option GoErr) × Cache × Nat :=
  match cacheLookup c (repo, sha) with
  | some v => ((v, none), c, 0)
  | none =>
    match b.makeRepo repo with
    | some e => ((false, some e), c, 1)
    | none =>
      match b.newClient repo with
      | some e => ((false, some e), c, 2)
      | none =>
        match checkImposterCommit b repo sha with
        | (out, err, k) => ((out, err), ((repo, sha), out) :: c, 2 + k)

/-- Embedding of `strings.TrimPrefix(ref, "actions://")`. -/
def stripActionsScheme (ref : Str) : Str :=
  if leadsWith "actions://".toList ref then ref.drop 10 else ref

/-- Embedding of `strings.Split(s, "@")`. -/
def goSplitAt : Str → List Str
  | [] => [[]]
  | c :: rest =>
    match goSplitAt rest with
    | [] => []
    | h :: t => if c = '@' then [] :: h :: t else (c :: h) :: t

/-- Outcome of the imposter-commit walker: normal result, Go error, or
nil-pointer panic.  `ok`/`err` carry the accumulator as mutated so far
(Go's `pdata` mutations survive an error return). -/
inductive IOut where
  | ok (acc : List DangerousWorkflow)
  | err (e : GoErr) (acc : List DangerousWorkflow)
  | panics
deriving DecidableEq, Repr

/-- The body of the step loop of `validateImposterCommits`.  A nil step
panics at `step.Exec`; an action step with nil `Uses` panics at
`e.Uses.Value`; a run step or nil `Exec` matches no switch case and is
skipped. -/
def imposterStep (b : Backend) (path : Str) (j : JobModel) (c : Cache)
    (acc : List DangerousWorkflow) : Option StepModel → IOut × Cache × Nat
  | none => (.panics, c, 0)
  | some st =>
    match st.exec with
    | some (.execAction uses _) =>
      match uses with
      | none => (.panics, c, 0)
      | some refv =>
        let trimmedRef := stripActionsScheme refv
        match goSplitAt trimmedRef with
        | [repo, sha] =>
          match cacheContains b c repo sha with
          | ((_, some e), c2, k) => (.err e acc, c2, k)
          | ((true, none), c2, k) => (.ok acc, c2, k)
          | ((false, none), c2, k) =>
            (.ok (acc ++ [⟨.imposterReference, ⟨path, st.pos, trimmedRef⟩,
              createJob (some j)⟩]), c2, k)
        | _ => (.err (.unexpectedReference trimmedRef) acc, c, 0)
    | _ => (.ok acc, c, 0)

/-- Step loop of `validateImposterCommits` over one job's steps. -/
def imposterSteps (b : Backend) (path : Str) (j : JobModel) :
    List (Option StepModel) → Cache → List DangerousWorkflow → IOut × Cache × Nat
  | [], c, acc => (.ok acc, c, 0)
  | st :: rest, c, acc =>
    match imposterStep b path j c acc st with
    | (.ok a2, c2, k) =>
      let r := imposterSteps b path j rest c2 a2
      (r.1, r.2.1, k + r.2.2)
    | (.err e a2, c2, k) => (.err e a2, c2, k)
    | (.panics, c2, k) => (.panics, c2, k)

/-- Job loop of `validateImposterCommits`.  A nil job panics at
`job.Steps` (the walker has no nil check, unlike the other analyzers). -/
def imposterJobs (b : Backend) (path : Str) :
    List (Option JobModel) → Cache → List DangerousWorkflow → IOut × Cache × Nat
  | [], c, acc => (.ok acc, c, 0)
  | none :: _, c, acc => (.panics, c, 0)
  | some j :: rest, c, acc =>
    match imposterSteps b path j j.steps c acc with
    | (.ok a2, c2, k) =>
      let r := imposterJobs b path rest c2 a2
      (r.1, r.2.1, k + r.2.2)
    | (.err e a2, c2, k) => (.err e a2, c2, k)
    | (.panics, c2, k) => (.panics, c2, k)

/-- Embedding of `validateImposterCommits`: a fresh cache per call. -/
def validateImposterCommits (b : Backend) (w : WorkflowModel) (path : Str)
    (acc : List DangerousWorkflow) : IOut × Cache × Nat :=
  imposterJobs b path w.jobs [] acc

/-- Outcome of one workflow's validation (`Validate`, after parsing). -/
inductive VOut where
  | ok (findings : List DangerousWorkflow)
  | err (e : GoErr) (findings : List DangerousWorkflow)
  | panics
deriving DecidableEq, Repr

/-- Embedding of the analyzer sequence of
`validateGitHubActionWorkflowPatterns.Validate` on a parsed workflow:
untrusted-checkout, then script-injection, then imposter-commit, all
appending to one shared accumulator. -/
def validateWorkflow (b : Backend) (w : WorkflowModel) (path : Str)
    (acc : List DangerousWorkflow) : VOut :=
  let acc1 := validateUntrustedCodeCheckout w path acc
  match validateScriptInjection w path acc1 with
  | (a2, some e) => .err e a2
  | (a2, none) =>
    match validateImposterCommits b w path a2 with
    | (.ok a3, _, _) => .ok a3
    | (.err e a3, _, _) => .err e a3
    | (.panics, _, _) => .panics

/-- **C6.** After a successful `Contains` call for a (repo, sha) pair,
a second call for the same pair on the resulting cache issues zero
backend operations (no client construction, listing, or reachability
query), returns the same boolean, and leaves the cache unchanged. -/
theorem claim_C6_cache_no_refetch (b : Backend) (c : Cache) (repo sha : Str)
    (v : Bool) (c2 : Cache) (k : Nat)
    (h : cacheContains b c repo sha = ((v, none), c2, k)) :
    cacheContains b c2 repo sha = ((v, none), c2, 0) := by
  unfold cacheContains at h ⊢
  cases hl : cacheLookup c (repo, sha) with
  | some v0 =>
    rw [hl] at h
    simp only [Prod.mk.injEq] at h
    obtain ⟨⟨hv, -⟩, hc2, hk⟩ := h
    subst hv
    subst hc2
    rw [hl]
  | none =>
    rw [hl] at h
    cases hmk : b.makeRepo repo with
    | some e =>
      rw [hmk] at h
      simp at h
    | none =>
      rw [hmk] at h
      cases hnc : b.newClient repo with
      | some e =>
        rw [hnc] at h
        simp at h
      | none =>
        rw [hnc] at h
        rcases hci : checkImposterCommit b repo sha with ⟨out, err, k1⟩
        rw [hci] at h
        simp only [Prod.mk.injEq] at h
        obtain ⟨⟨hv, herr⟩, hc2, hk⟩ := h
        subst hv
        subst hc2
        rw [show cacheLookup (((repo, sha), out) :: c) (repo, sha) = some out from by
          simp [cacheLookup]]

/-- A deterministic backend where every revision is reachable. -/
def exBackendOk : Backend where
  makeRepo _ := none
  newClient _ := none
  listBranches _ := (["main".toList], none)
  listTags _ := ([], none)
  containsRevision _ _ _ := (true, none)

/-- Witness for C6: the first call for ("o/r", "abc") performs 4 backend
operations; the second returns the cached `true` with none. -/
theorem claim_C6_cache_no_refetch_witness :
    cacheContains exBackendOk [(("o/r".toList, "abc".toList), true)]
      "o/r".toList "abc".toList =
      ((true, none), [(("o/r".toList, "abc".toList), true)], 0) :=
  claim_C6_cache_no_refetch exBackendOk [] "o/r".toList "abc".toList true
    [(("o/r".toList, "abc".toList), true)] 4 (by decide)

/-- A backend whose branch listing fails. -/
def cexBackendErr : Backend where
  makeRepo _ := none
  newClient _ := none
  listBranches _ := ([], some (.client 7))
  listTags _ := ([], none)
  containsRevision _ _ _ := (false, none)

/-- **C1 counterexample.**  With a backend whose branch listing fails,
the first `Contains` call for ("o/r", "abc") returns the error — but a
value (`false`) *is* cached for the pair, and a subsequent `Contains`
call for the same pair issues zero remote operations and returns the
remembered `false` instead of retrying. -/
theorem claim_C1_counterexample :
    cacheContains cexBackendErr [] "o/r".toList "abc".toList =
      ((false, some (.client 7)), [(("o/r".toList, "abc".toList), false)], 3) ∧
    cacheContains cexBackendErr [(("o/r".toList, "abc".toList), false)]
      "o/r".toList "abc".toList =
      ((false, none), [(("o/r".toList, "abc".toList), false)], 0) := by
  constructor <;> decide

/-- Every error path of `checkImposterCommit` returns `false` as the
boolean component (Go `return false, err`). -/
theorem checkImposterCommit_false_of_err {b : Backend} {repo target : Str}
    {out : Bool} {e : GoErr} {k : Nat}
    (h : checkImposterCommit b repo target = (out, some e, k)) : out = false := by
  unfold checkImposterCommit at h
  repeat' split at h
  all_goals
    injection h with h1 h2
  all_goals
    first
    | exact h1.symm
    | (injection h2 with h21 h22; exact Option.noConfusion h21)

/-- **C1 (amended).**  A failing `Contains` lookup propagates its error.
If the failure happened while constructing the sub-repository client,
nothing is cached.  But if it happened during branch/tag listing or a
reachability query (inside `checkImposterCommit`), `false` is cached for
the pair, and a subsequent `Contains` call for the same pair issues no
remote calls and returns `false` without an error. -/
theorem claim_C1_amended (b : Backend) (c : Cache) (repo sha : Str)
    (v : Bool) (e : GoErr) (c2 : Cache) (k : Nat)
    (h : cacheContains b c repo sha = ((v, some e), c2, k)) :
    (c2 = c ∧ (b.makeRepo repo = some e ∨ b.newClient repo = some e)) ∨
    (c2 = ((repo, sha), false) :: c ∧
      (checkImposterCommit b repo sha).2.1 = some e ∧
      cacheContains b c2 repo sha = ((false, none), c2, 0)) := by
  unfold cacheContains at h
  cases hl : cacheLookup c (repo, sha) with
  | some v0 =>
    rw [hl] at h
    simp at h
  | none =>
    rw [hl] at h
    cases hmk : b.makeRepo repo with
    | some e0 =>
      rw [hmk] at h
      simp only [Prod.mk.injEq] at h
      obtain ⟨⟨hv, he⟩, hc2, hk⟩ := h
      injection he with he'
      exact Or.inl ⟨hc2.symm, Or.inl (congrArg some he')⟩
    | none =>
      rw [hmk] at h
      cases hnc : b.newClient repo with
      | some e0 =>
        rw [hnc] at h
        simp only [Prod.mk.injEq] at h
        obtain ⟨⟨hv, he⟩, hc2, hk⟩ := h
        injection he with he'
        exact Or.inl ⟨hc2.symm, Or.inr (congrArg some he')⟩
      | none =>
        rw [hnc] at h
        rcases hci : checkImposterCommit b repo sha with ⟨out, err, k1⟩
        rw [hci] at h
        simp only [Prod.mk.injEq] at h
        obtain ⟨⟨hv, herr⟩, hc2, hk⟩ := h
        have hout : out = false :=
          checkImposterCommit_false_of_err (herr ▸ hci)
        subst hout
        refine Or.inr ⟨hc2.symm, ?_, ?_⟩
        · exact herr
        · rw [← hc2]
          unfold cacheContains
          rw [show cacheLookup (((repo, sha), false) :: c) (repo, sha) = some false from by
            simp [cacheLookup]]

/-- Witness for the amended C1 at the concrete failing backend. -/
theorem claim_C1_amended_witness :
    ([(("o/r".toList, "abc".toList), false)] = ([] : Cache) ∧
      (cexBackendErr.makeRepo "o/r".toList = some (.client 7) ∨
        cexBackendErr.newClient "o/r".toList = some (.client 7))) ∨
    ([(("o/r".toList, "abc".toList), false)] =
        (("o/r".toList, "abc".toList), false) :: ([] : Cache) ∧
      (checkImposterCommit cexBackendErr "o/r".toList "abc".toList).2.1 =
        some (.client 7) ∧
      cacheContains cexBackendErr [(("o/r".toList, "abc".toList), false)]
        "o/r".toList "abc".toList =
        ((false, none), [(("o/r".toList, "abc".toList), false)], 0)) :=
  claim_C1_amended cexBackendErr [] "o/r".toList "abc".toList false
    (.client 7) [(("o/r".toList, "abc".toList), false)] 3 (by decide)

/-! ## Reference parsing: split on `@` -/

/-- Number of `@` characters in a string. -/
def countAt : Str → Nat
  | [] => 0
  | c :: rest => (if c = '@' then 1 else 0) + countAt rest

theorem goSplitAt_ne_nil (l : Str) : goSplitAt l ≠ [] := by
  induction l with
  | nil => simp [goSplitAt]
  | cons c rest ih =>
    rw [goSplitAt]
    cases hg : goSplitAt rest with
    | nil => exact absurd hg ih
    | cons h t =>
      by_cases hc : c = '@' <;> simp [hc]

/-- `strings.Split` yields one more field than there are separators. -/
theorem goSplitAt_length (l : Str) : (goSplitAt l).length = countAt l + 1 := by
  induction l with
  | nil => rfl
  | cons c rest ih =>
    rw [goSplitAt, countAt]
    cases hg : goSplitAt rest with
    | nil => exact absurd hg (goSplitAt_ne_nil rest)
    | cons h t =>
      rw [hg] at ih
      simp only [List.length_cons] at ih
      by_cases hc : c = '@' <;> simp [hc] <;> omega

theorem goSplitAt_no_at {l : Str} (h : '@' ∉ l) : goSplitAt l = [l] := by
  induction l with
  | nil => rfl
  | cons c rest ih =>
    have hc : ¬(c = '@') := fun hc => h (by simp [hc])
    rw [goSplitAt, ih (fun hm => h (List.mem_cons_of_mem c hm))]
    simp [hc]

theorem goSplitAt_append {a : Str} (b : Str) (ha : '@' ∉ a) :
    goSplitAt (a ++ '@' :: b) = a :: goSplitAt b := by
  induction a with
  | nil =>
    simp only [List.nil_append, goSplitAt]
    cases hg : goSplitAt b with
    | nil => exact absurd hg (goSplitAt_ne_nil b)
    | cons h t => simp
  | cons c a' ih =>
    have hc : ¬(c = '@') := fun hc => ha (by simp [hc])
    have ih' := ih (fun hm => ha (List.mem_cons_of_mem c hm))
    rw [List.cons_append, goSplitAt, ih']
    simp [hc]

/-! ## C3: imposter detection on a well-formed reference -/

theorem containsRevLoop_ok {b : Backend} {repo target : Str} {reach : Str → Bool}
    (hcr : ∀ rn, b.containsRevision repo rn target = (reach rn, none))
    (pfx : Str) (names : List Str) :
    (containsRevLoop b repo pfx target names).1 =
      (if names.any (fun n => reach (pfx ++ n)) then .found else .notFound) := by
  induction names with
  | nil => simp [containsRevLoop]
  | cons nm rest ih =>
    rw [containsRevLoop, hcr (pfx ++ nm)]
    by_cases hr : reach (pfx ++ nm) = true
    · simp [hr]
    · simp only [Bool.not_eq_true] at hr
      rw [hr]
      simp [hr, ih]

theorem checkImposterCommit_ok {b : Backend} {repo target : Str}
    {bs ts : List Str} {reach : Str → Bool}
    (hbs : b.listBranches repo = (bs, none))
    (hts : b.listTags repo = (ts, none))
    (hcr : ∀ rn, b.containsRevision repo rn target = (reach rn, none)) :
    (checkImposterCommit b repo target).1 =
      (bs.any (fun n => reach ("refs/heads/".toList ++ n)) ||
        ts.any (fun n => reach ("refs/tags/".toList ++ n))) ∧
    (checkImposterCommit b repo target).2.1 = none := by
  have h1 := containsRevLoop_ok hcr "refs/heads/".toList bs
  rcases hl1 : containsRevLoop b repo "refs/heads/".toList target bs with ⟨lr, lk⟩
  rw [hl1] at h1
  simp only at h1
  by_cases hba : bs.any (fun n => reach ("refs/heads/".toList ++ n)) = true
  · rw [if_pos hba] at h1
    subst h1
    unfold checkImposterCommit
    simp only [hbs, hl1]
    exact ⟨by rw [hba]; simp, trivial⟩
  · simp only [Bool.not_eq_true] at hba
    rw [hba, if_neg (by simp)] at h1
    subst h1
    have h2 := containsRevLoop_ok hcr "refs/tags/".toList ts
    rcases hl2 : containsRevLoop b repo "refs/tags/".toList target ts with ⟨lr2, lk2⟩
    rw [hl2] at h2
    simp only at h2
    by_cases hta : ts.any (fun n => reach ("refs/tags/".toList ++ n)) = true
    · rw [if_pos hta] at h2
      subst h2
      unfold checkImposterCommit
      simp only [hbs, hl1, hts, hl2]
      exact ⟨by rw [hba, hta]; simp, trivial⟩
    · simp only [Bool.not_eq_true] at hta
      rw [hta, if_neg (by simp)] at h2
      subst h2
      unfold checkImposterCommit
      simp only [hbs, hl1, hts, hl2]
      exact ⟨by rw [hba, hta]; simp, trivial⟩

theorem cacheContains_ok {b : Backend} {c : Cache} {repo sha : Str}
    {bs ts : List Str} {reach : Str → Bool}
    (hmk : b.makeRepo repo = none) (hnc : b.newClient repo = none)
    (hbs : b.listBranches repo = (bs, none))
    (hts : b.listTags repo = (ts, none))
    (hcr : ∀ rn, b.containsRevision repo rn sha = (reach rn, none))
    (hcons : ∀ v, cacheLookup c (repo, sha) = some v →
      v = (bs.any (fun n => reach ("refs/heads/".toList ++ n)) ||
        ts.any (fun n => reach ("refs/tags/".toList ++ n)))) :
    (cacheContains b c repo sha).1 =
      ((bs.any (fun n => reach ("refs/heads/".toList ++ n)) ||
        ts.any (fun n => reach ("refs/tags/".toList ++ n))), none) := by
  unfold cacheContains
  cases hl : cacheLookup c (repo, sha) with
  | some v =>
    rw [hcons v hl]
  | none =>
    rw [hmk, hnc]
    obtain ⟨h1, h2⟩ := checkImposterCommit_ok hbs hts hcr
    rcases hci : checkImposterCommit b repo sha with ⟨out, err, k1⟩
    rw [hci] at h1 h2
    simp only at h1 h2
    subst h1
    subst h2
    rfl

/-- **C3.** For a well-formed reference `repo@sha` in an action step,
under an error-free backend and a cache consistent with it: if `sha` is
reachable from some branch, the step appends no ImposterCommit finding;
if it is unreachable from every branch and every tag, the step appends
exactly one ImposterCommit finding whose snippet is the normalized
reference `repo@sha`. -/
theorem claim_C3_imposter_detection (b : Backend) (j : JobModel) (path : Str)
    (c : Cache) (acc : List DangerousWorkflow) (spos : Nat)
    (refv : Str) (inputs : List (Str × Option Str)) (repo sha : Str)
    (bs ts : List Str) (reach : Str → Bool)
    (htr : stripActionsScheme refv = repo ++ '@' :: sha)
    (hrepo : '@' ∉ repo) (hsha : '@' ∉ sha)
    (hmk : b.makeRepo repo = none) (hnc : b.newClient repo = none)
    (hbs : b.listBranches repo = (bs, none))
    (hts : b.listTags repo = (ts, none))
    (hcr : ∀ rn, b.containsRevision repo rn sha = (reach rn, none))
    (hcons : ∀ v, cacheLookup c (repo, sha) = some v →
      v = (bs.any (fun n => reach ("refs/heads/".toList ++ n)) ||
        ts.any (fun n => reach ("refs/tags/".toList ++ n)))) :
    ((∃ n ∈ bs, reach ("refs/heads/".toList ++ n) = true) →
      (imposterStep b path j c acc
        (some ⟨spos, some (.execAction (some refv) inputs)⟩)).1 = .ok acc) ∧
    ((∀ n ∈ bs, reach ("refs/heads/".toList ++ n) = false) →
      (∀ n ∈ ts, reach ("refs/tags/".toList ++ n) = false) →
      (imposterStep b path j c acc
        (some ⟨spos, some (.execAction (some refv) inputs)⟩)).1 =
        .ok (acc ++ [⟨.imposterReference, ⟨path, spos, repo ++ '@' :: sha⟩,
          some ⟨j.name, j.id⟩⟩])) := by
  have hsplit : goSplitAt (stripActionsScheme refv) = [repo, sha] := by
    rw [htr, goSplitAt_append sha hrepo, goSplitAt_no_at hsha]
  have hok := cacheContains_ok hmk hnc hbs hts hcr hcons
  constructor
  · intro hreach
    have hba : bs.any (fun n => reach ("refs/heads/".toList ++ n)) = true := by
      rw [List.any_eq_true]
      obtain ⟨n, hn, hr⟩ := hreach
      exact ⟨n, hn, by simpa using hr⟩
    unfold imposterStep
    simp only [hsplit]
    rcases hcc : cacheContains b c repo sha with ⟨⟨out, err⟩, c2, k⟩
    rw [hcc] at hok
    simp only [Prod.mk.injEq] at hok
    obtain ⟨ho, he⟩ := hok
    subst ho
    subst he
    rw [hba]
    simp
  · intro hbr htg
    have hba : bs.any (fun n => reach ("refs/heads/".toList ++ n)) = false := by
      rw [List.any_eq_false]
      intro n hn
      simp only [Bool.not_eq_true]
      exact hbr n hn
    have hta : ts.any (fun n => reach ("refs/tags/".toList ++ n)) = false := by
      rw [List.any_eq_false]
      intro n hn
      simp only [Bool.not_eq_true]
      exact htg n hn
    unfold imposterStep
    simp only [hsplit]
    rcases hcc : cacheContains b c repo sha with ⟨⟨out, err⟩, c2, k⟩
    rw [hcc] at hok
    simp only [Prod.mk.injEq] at hok
    obtain ⟨ho, he⟩ := hok
    subst ho
    subst he
    rw [hba, hta]
    simp [htr, createJob]

/-- A backend for the C3 witness: one branch `main`, and `abc` reachable
exactly from `refs/heads/main`. -/
def exBackendC3 : Backend where
  makeRepo _ := none
  newClient _ := none
  listBranches _ := (["main".toList], none)
  listTags _ := ([], none)
  containsRevision _ rn _ := (decide (rn = "refs/heads/main".toList), none)

/-- Witness for C3: reachable sha, step appends nothing. -/
theorem claim_C3_imposter_detection_witness :
    (imposterStep exBackendC3 "wf".toList ⟨none, some "j1".toList, []⟩ [] []
      (some ⟨4, some (.execAction (some "octo/act@abc".toList) [])⟩)).1 =
      IOut.ok [] :=
  (claim_C3_imposter_detection exBackendC3 ⟨none, some "j1".toList, []⟩
    "wf".toList [] [] 4 "octo/act@abc".toList [] "octo/act".toList "abc".toList
    ["main".toList] [] (fun rn => decide (rn = "refs/heads/main".toList))
    (by decide) (by decide) (by decide) rfl rfl rfl rfl (fun rn => rfl)
    (fun v h => Option.noConfusion h)).1
    ⟨"main".toList, by decide, by decide⟩

/-- A step whose (trimmed) reference has no single `@` makes the walker
fail fast with the malformed-reference error, before any remote call and
without appending a finding. -/
theorem imposterStep_malformed (b : Backend) (path : Str) (j : JobModel)
    (c : Cache) (acc : List DangerousWorkflow) (spos : Nat) (refv : Str)
    (inputs : List (Str × Option Str))
    (h : countAt (stripActionsScheme refv) ≠ 1) :
    imposterStep b path j c acc (some ⟨spos, some (.execAction (some refv) inputs)⟩) =
      (.err (.unexpectedReference (stripActionsScheme refv)) acc, c, 0) := by
  have hlen : (goSplitAt (stripActionsScheme refv)).length ≠ 2 := by
    rw [goSplitAt_length]
    omega
  unfold imposterStep
  rcases hsp : goSplitAt (stripActionsScheme refv) with _ | ⟨x, _ | ⟨y, _ | ⟨z, t⟩⟩⟩
  · simp [hsp]
  · simp [hsp]
  · rw [hsp] at hlen
    simp at hlen
  · simp [hsp]

/-- **C9.** Splitting a reference at `@` yields `countAt + 1` fields, so
the code's `len(s) != 2` test is exactly "zero or more than one `@`";
such a step makes the walker return the descriptive malformed-reference
error with no finding appended and no remote call issued, and the whole
imposter analysis of the workflow fails fast with that error. -/
theorem claim_C9_malformed_reference :
    (∀ l : Str, (goSplitAt l).length = countAt l + 1) ∧
    (∀ (b : Backend) (path : Str) (j : JobModel) (c : Cache)
        (acc : List DangerousWorkflow) (spos : Nat) (refv : Str)
        (inputs : List (Str × Option Str)),
      countAt (stripActionsScheme refv) ≠ 1 →
      imposterStep b path j c acc
          (some ⟨spos, some (.execAction (some refv) inputs)⟩) =
        (.err (.unexpectedReference (stripActionsScheme refv)) acc, c, 0)) ∧
    (∀ (b : Backend) (path : Str) (evts : List Str)
        (jrest : List (Option JobModel)) (j : JobModel)
        (srest : List (Option StepModel)) (acc : List DangerousWorkflow)
        (spos : Nat) (refv : Str) (inputs : List (Str × Option Str)),
      j.steps = some ⟨spos, some (.execAction (some refv) inputs)⟩ :: srest →
      countAt (stripActionsScheme refv) ≠ 1 →
      (validateImposterCommits b ⟨evts, some j :: jrest⟩ path acc).1 =
        .err (.unexpectedReference (stripActionsScheme refv)) acc) := by
  refine ⟨goSplitAt_length, imposterStep_malformed, ?_⟩
  intro b path evts jrest j srest acc spos refv inputs hsteps h
  unfold validateImposterCommits
  show (imposterJobs b path (some j :: jrest) [] acc).1 = _
  unfold imposterJobs
  rw [hsteps]
  unfold imposterSteps
  rw [imposterStep_malformed b path j [] acc spos refv inputs h]

/-- Witness for C9 at a concrete reference with zero `@`. -/
theorem claim_C9_malformed_reference_witness :
    imposterStep exBackendC3 "wf".toList ⟨none, none, []⟩ [] []
        (some ⟨2, some (.execAction (some "actions/checkout".toList) [])⟩) =
      (.err (.unexpectedReference "actions/checkout".toList) [], [], 0) :=
  claim_C9_malformed_reference.2.1 exBackendC3 "wf".toList ⟨none, none, []⟩ [] []
    2 "actions/checkout".toList [] (by decide)

/-- **C10.** The imposter walker is not total on the inputs the other
analyzers accept: a nil job, or an action step with nil `Uses`, makes
`validateImposterCommits` dereference a nil pointer (panic), while the
untrusted-checkout and script-injection analyzers skip the same job or
step without error. -/
theorem claim_C10_imposter_not_total :
    (∀ (b : Backend) (path : Str) (rest : List (Option JobModel)) (c : Cache)
        (acc : List DangerousWorkflow),
      imposterJobs b path (none :: rest) c acc = (.panics, c, 0)) ∧
    (∀ (b : Backend) (evts : List Str) (rest : List (Option JobModel))
        (path : Str) (acc : List DangerousWorkflow),
      (validateImposterCommits b ⟨evts, none :: rest⟩ path acc).1 = .panics) ∧
    (∀ (b : Backend) (path : Str) (j : JobModel) (c : Cache)
        (acc : List DangerousWorkflow) (spos : Nat)
        (inputs : List (Str × Option Str)),
      imposterStep b path j c acc (some ⟨spos, some (.execAction none inputs)⟩) =
        (.panics, c, 0)) ∧
    (∀ (path : Str) (acc : List DangerousWorkflow),
      checkJobForUntrustedCodeCheckout none path acc = acc) ∧
    (∀ (j : JobModel) (path : Str) (spos : Nat)
        (inputs : List (Str × Option Str)),
      checkoutStepFindings j path (some ⟨spos, some (.execAction none inputs)⟩) = []) ∧
    (∀ (path : Str) (rest : List (Option JobModel)) (acc : List DangerousWorkflow),
      scriptJobs path (none :: rest) acc = scriptJobs path rest acc) ∧
    (∀ (path : Str) (j : JobModel) (srest : List (Option StepModel))
        (acc : List DangerousWorkflow) (spos : Nat)
        (inputs : List (Str × Option Str)),
      scriptSteps path j (some ⟨spos, some (.execAction none inputs)⟩ :: srest) acc =
        scriptSteps path j srest acc) := by
  refine ⟨?_, ?_, ?_, ?_, ?_, ?_, ?_⟩ <;> intros <;> rfl

/-! ## C5: ordering of findings in the result list -/

/-- The script-injection findings and error of a single step, computed
from an empty accumulator. -/
def stepScanRes (path : Str) (j : JobModel) :
    Option StepModel → List DangerousWorkflow × Option GoErr
  | some st =>
    match st.exec with
    | some (.execRun (some (body, rpos))) =>
      (((scanExprs body).1.filter containsUntrustedContextPattern).map
        (mkScriptFinding path rpos (some j)), (scanExprs body).2)
    | _ => ([], none)
  | none => ([], none)

/-- The script-injection findings of one job's steps, in step order,
stopping at the first failing step. -/
def stepsScanRes (path : Str) (j : JobModel) :
    List (Option StepModel) → List DangerousWorkflow × Option GoErr
  | [] => ([], none)
  | st :: rest =>
    match stepScanRes path j st with
    | (l, some e) => (l, some e)
    | (l, none) =>
      let r := stepsScanRes path j rest
      (l ++ r.1, r.2)

/-- The script-injection findings of a job list, in job order. -/
def jobsScanRes (path : Str) :
    List (Option JobModel) → List DangerousWorkflow × Option GoErr
  | [] => ([], none)
  | none :: rest => jobsScanRes path rest
  | some j :: rest =>
    match stepsScanRes path j j.steps with
    | (l, some e) => (l, some e)
    | (l, none) =>
      let r := jobsScanRes path rest
      (l ++ r.1, r.2)

theorem scriptSteps_eq (path : Str) (j : JobModel) :
    ∀ (steps : List (Option StepModel)) (acc : List DangerousWorkflow),
    scriptSteps path j steps acc =
      (acc ++ (stepsScanRes path j steps).1, (stepsScanRes path j steps).2) := by
  intro steps
  induction steps with
  | nil => intro acc; simp [scriptSteps, stepsScanRes]
  | cons st rest ih =>
    intro acc
    cases st with
    | none => simp [scriptSteps, stepsScanRes, stepScanRes, ih]
    | some stv =>
      rcases stv with ⟨spos, sexec⟩
      rcases sexec with _ | (⟨u, inputs⟩ | rr)
      · simp [scriptSteps, stepsScanRes, stepScanRes, ih]
      · simp [scriptSteps, stepsScanRes, stepScanRes, ih]
      · rcases rr with _ | ⟨body, rpos⟩
        · simp [scriptSteps, stepsScanRes, stepScanRes, ih]
        · simp only [scriptSteps, stepsScanRes, stepScanRes]
          rw [checkVariablesInScript_factor]
          cases hE : (scanExprs body).2 with
          | none => simp [hE, ih, List.append_assoc]
          | some e => simp [hE]

theorem scriptJobs_eq (path : Str) :
    ∀ (jobs : List (Option JobModel)) (acc : List DangerousWorkflow),
    scriptJobs path jobs acc =
      (acc ++ (jobsScanRes path jobs).1, (jobsScanRes path jobs).2) := by
  intro jobs
  induction jobs with
  | nil => intro acc; simp [scriptJobs, jobsScanRes]
  | cons job rest ih =>
    intro acc
    cases job with
    | none => simp [scriptJobs, jobsScanRes, ih]
    | some j =>
      simp only [scriptJobs, jobsScanRes]
      rw [scriptSteps_eq]
      rcases hs : stepsScanRes path j j.steps with ⟨l, oe⟩
      simp only [hs]
      cases oe with
      | none => simp [ih, List.append_assoc]
      | some e => simp

/-- The claim-side document-order emission of the script-injection pass:
per job, per step, the findings of that step's risky expressions. -/
def scriptInjectionSpec (w : WorkflowModel) (path : Str) : List DangerousWorkflow :=
  concatMap (fun job =>
    match job with
    | none => []
    | some j => concatMap (fun st => (stepScanRes path j st).1) j.steps) w.jobs

theorem stepsScanRes_success (path : Str) (j : JobModel) :
    ∀ (steps : List (Option StepModel)),
    (stepsScanRes path j steps).2 = none →
    (stepsScanRes path j steps).1 =
      concatMap (fun st => (stepScanRes path j st).1) steps := by
  intro steps
  induction steps with
  | nil => intro _; simp [stepsScanRes, concatMap]
  | cons st rest ih =>
    intro h
    rw [stepsScanRes] at h ⊢
    rcases hs : stepScanRes path j st with ⟨l, oe⟩
    rw [hs] at h
    cases oe with
    | some e => simp at h
    | none =>
      simp only at h ⊢
      rw [concatMap]
      simp [hs, ih h]

theorem jobsScanRes_success (path : Str) :
    ∀ (jobs : List (Option JobModel)),
    (jobsScanRes path jobs).2 = none →
    (jobsScanRes path jobs).1 =
      concatMap (fun job =>
        match job with
        | none => []
        | some j => concatMap (fun st => (stepScanRes path j st).1) j.steps) jobs := by
  intro jobs
  induction jobs with
  | nil => intro _; simp [jobsScanRes, concatMap]
  | cons job rest ih =>
    intro h
    cases job with
    | none =>
      rw [jobsScanRes] at h ⊢
      rw [concatMap, ih h]
      simp
    | some j =>
      rw [jobsScanRes] at h ⊢
      rcases hs : stepsScanRes path j j.steps with ⟨l, oe⟩
      rw [hs] at h
      cases oe with
      | some e => simp at h
      | none =>
        simp only at h ⊢
        have hss : l = concatMap (fun st => (stepScanRes path j st).1) j.steps := by
          have h2 := stepsScanRes_success path j j.steps (by rw [hs])
          rw [hs] at h2
          exact h2
        rw [concatMap]
        simp [← hss, ih h]

/-- Shift an imposter outcome by a previously accumulated finding list. -/
def ioutShift (acc : List DangerousWorkflow) : IOut → IOut
  | .ok l => .ok (acc ++ l)
  | .err e l => .err e (acc ++ l)
  | .panics => .panics

theorem ioutShift_comp (a l : List DangerousWorkflow) (io : IOut) :
    ioutShift a (ioutShift l io) = ioutShift (a ++ l) io := by
  cases io <;> simp [ioutShift]

theorem imposterStep_shift (b : Backend) (path : Str) (j : JobModel) (c : Cache)
    (acc : List DangerousWorkflow) (ost : Option StepModel) :
    imposterStep b path j c acc ost =
      (ioutShift acc (imposterStep b path j c [] ost).1,
        (imposterStep b path j c [] ost).2) := by
  cases ost with
  | none => simp [imposterStep, ioutShift]
  | some st =>
    rcases st with ⟨spos, sexec⟩
    rcases sexec with _ | (⟨uses, inputs⟩ | rr)
    · simp [imposterStep, ioutShift]
    · cases uses with
      | none => simp [imposterStep, ioutShift]
      | some refv =>
        simp only [imposterStep]
        rcases hsp : goSplitAt (stripActionsScheme refv) with _ | ⟨x, _ | ⟨y, _ | ⟨z, t⟩⟩⟩
        · simp [ioutShift]
        · simp [ioutShift]
        · rcases hcc : cacheContains b c x y with ⟨⟨out, err⟩, c2, k⟩
          simp only [hcc]
          cases err with
          | some e => simp [ioutShift]
          | none => cases out <;> simp [ioutShift]
        · simp [ioutShift]
    · simp [imposterStep, ioutShift]

theorem imposterSteps_shift (b : Backend) (path : Str) (j : JobModel) :
    ∀ (steps : List (Option StepModel)) (c : Cache) (acc : List DangerousWorkflow),
    imposterSteps b path j steps c acc =
      (ioutShift acc (imposterSteps b path j steps c []).1,
        (imposterSteps b path j steps c []).2) := by
  intro steps
  induction steps with
  | nil => intro c acc; simp [imposterSteps, ioutShift]
  | cons st rest ih =>
    intro c acc
    rw [imposterSteps, imposterSteps, imposterStep_shift b path j c acc st]
    rcases hS : imposterStep b path j c [] st with ⟨io, c2, k⟩
    simp only [hS]
    cases io with
    | ok l =>
      simp only [ioutShift]
      rw [ih c2 (acc ++ l), ih c2 l]
      rcases hR : (imposterSteps b path j rest c2 []).1 with l2 | ⟨e2, l2⟩ | _ <;>
        simp [ioutShift, List.append_assoc]
    | err e l => simp [ioutShift]
    | panics => simp [ioutShift]

theorem imposterJobs_shift (b : Backend) (path : Str) :
    ∀ (jobs : List (Option JobModel)) (c : Cache) (acc : List DangerousWorkflow),
    imposterJobs b path jobs c acc =
      (ioutShift acc (imposterJobs b path jobs c []).1,
        (imposterJobs b path jobs c []).2) := by
  intro jobs
  induction jobs with
  | nil => intro c acc; simp [imposterJobs, ioutShift]
  | cons job rest ih =>
    intro c acc
    cases job with
    | none => simp [imposterJobs, ioutShift]
    | some j =>
      rw [imposterJobs, imposterJobs, imposterSteps_shift b path j j.steps c acc]
      rcases hS : imposterSteps b path j j.steps c [] with ⟨io, c2, k⟩
      simp only [hS]
      cases io with
      | ok l =>
        simp only [ioutShift]
        rw [ih c2 (acc ++ l), ih c2 l]
        rcases hR : (imposterJobs b path rest c2 []).1 with l2 | ⟨e2, l2⟩ | _ <;>
          simp [ioutShift, List.append_assoc]
      | err e l => simp [ioutShift]
      | panics => simp [ioutShift]

/-- **C5 (amended).**  When one workflow's validation succeeds, the
findings it appends are grouped by analyzer pass — first the
untrusted-checkout findings, then the script-injection findings, then
the imposter-commit findings — and within the checkout and script passes
the findings follow job/step document order (the concatMap normal forms
below); the imposter pass likewise appends left-to-right over jobs and
steps.  Findings are *not* interleaved in global document order. -/
theorem claim_C5_amended (b : Backend) (w : WorkflowModel) (path : Str)
    (acc res : List DangerousWorkflow)
    (h : validateWorkflow b w path acc = .ok res) :
    ∃ F3, res = acc ++ untrustedCheckoutSpec w path ++ scriptInjectionSpec w path ++ F3 ∧
      (validateImposterCommits b w path []).1 = .ok F3 ∧
      validateScriptInjection w path [] = (scriptInjectionSpec w path, none) := by
  unfold validateWorkflow at h
  rw [validateUntrustedCodeCheckout_eq] at h
  simp only at h
  have hscr := scriptJobs_eq path w.jobs (acc ++ untrustedCheckoutSpec w path)
  rcases hjs : jobsScanRes path w.jobs with ⟨S, oe⟩
  rw [hjs] at hscr
  rw [show validateScriptInjection w path (acc ++ untrustedCheckoutSpec w path) =
      scriptJobs path w.jobs (acc ++ untrustedCheckoutSpec w path) from rfl, hscr] at h
  cases oe with
  | some e => simp at h
  | none =>
    simp only at h
    rw [show validateImposterCommits b w path
        (acc ++ untrustedCheckoutSpec w path ++ S) =
        imposterJobs b path w.jobs [] (acc ++ untrustedCheckoutSpec w path ++ S)
        from rfl,
      imposterJobs_shift b path w.jobs []
        (acc ++ untrustedCheckoutSpec w path ++ S)] at h
    rcases hI : (imposterJobs b path w.jobs [] []).1 with F3 | ⟨e2, l2⟩ | _
    · rw [hI] at h
      simp only [ioutShift] at h
      refine ⟨F3, ?_, ?_, ?_⟩
      · injection h with h1
        rw [← h1]
        have hS : S = scriptInjectionSpec w path := by
          have := jobsScanRes_success path w.jobs (by rw [hjs])
          rw [hjs] at this
          exact this
        rw [hS]
      · show (imposterJobs b path w.jobs [] []).1 = IOut.ok F3
        rw [hI]
      · rw [show validateScriptInjection w path [] =
            scriptJobs path w.jobs [] from rfl, scriptJobs_eq, hjs]
        have hS : S = scriptInjectionSpec w path := by
          have := jobsScanRes_success path w.jobs (by rw [hjs])
          rw [hjs] at this
          exact this
        simp [hS]
    · rw [hI] at h
      simp [ioutShift] at h
    · rw [hI] at h
      simp [ioutShift] at h

/-- Witness for the amended C5 on a trivial workflow. -/
theorem claim_C5_amended_witness :
    ∃ F3, ([] : List DangerousWorkflow) =
        [] ++ untrustedCheckoutSpec ⟨[], []⟩ "w".toList ++
          scriptInjectionSpec ⟨[], []⟩ "w".toList ++ F3 ∧
      (validateImposterCommits exBackendOk ⟨[], []⟩ "w".toList []).1 = .ok F3 ∧
      validateScriptInjection ⟨[], []⟩ "w".toList [] =
        (scriptInjectionSpec ⟨[], []⟩ "w".toList, none) :=
  claim_C5_amended exBackendOk ⟨[], []⟩ "w".toList [] [] (by decide)

/-- C5 counterexample workflow: under a `pull_request_target` trigger,
one job whose FIRST step (line 1) is a risky inline script and whose
SECOND step (line 2) is an untrusted checkout. -/
def cex5Body : Str := openDelim ++ "github.head_ref".toList ++ closeDelim

def cex5RunStep : StepModel := ⟨1, some (.execRun (some (cex5Body, 1)))⟩

def cex5ChkStep : StepModel :=
  ⟨2, some (.execAction (some "actions/checkout@v4".toList)
    [("ref".toList, some "github.event.pull_request".toList)])⟩

def cex5Job : JobModel :=
  ⟨none, some "j".toList, [some cex5RunStep, some cex5ChkStep]⟩

def cex5W : WorkflowModel := ⟨[triggerPullRequestTarget], [some cex5Job]⟩

def cex5FindChk : DangerousWorkflow :=
  ⟨.untrustedCheckout, ⟨"wf.yml".toList, 2, "github.event.pull_request".toList⟩,
    some ⟨none, some "j".toList⟩⟩

def cex5FindScr : DangerousWorkflow :=
  ⟨.scriptInjection, ⟨"wf.yml".toList, 1, "github.head_ref".toList⟩,
    some ⟨none, some "j".toList⟩⟩

/-- **C5 counterexample.**  In `cex5W` the script step (document line 1)
precedes the checkout step (document line 2) and both produce findings;
yet the result list puts the line-2 UntrustedCheckout finding before the
line-1 ScriptInjection finding, because the result is grouped by
analyzer pass, not by document traversal order. -/
theorem claim_C5_counterexample :
    validateWorkflow exBackendOk cex5W "wf.yml".toList [] =
      .ok [cex5FindChk, cex5FindScr] ∧
    cex5FindChk.file.offset = 2 ∧ cex5FindScr.file.offset = 1 ∧
    cex5Job.steps = [some cex5RunStep, some cex5ChkStep] := by
  refine ⟨?_, by decide, by decide, rfl⟩
  have h1 : strIndex openDelim cex5Body = some 0 := by decide
  have h2 : strIndex closeDelim (cex5Body.drop 0) = some 18 := by decide
  have h3 : strIndex openDelim (cex5Body.drop (0 + 18)) = none := by decide
  have hscan : scanExprs cex5Body = (["github.head_ref".toList], none) := by
    rw [scanExprs_eqn_step h1 h2, scanExprs_eqn_none h3]
    decide
  have hjs : jobsScanRes "wf.yml".toList cex5W.jobs = ([cex5FindScr], none) := by
    simp only [cex5W, cex5Job, jobsScanRes, stepsScanRes, stepScanRes,
      cex5RunStep, cex5ChkStep, hscan]
    decide
  have hchk : validateUntrustedCodeCheckout cex5W "wf.yml".toList [] =
      [cex5FindChk] := by decide
  have hscr : validateScriptInjection cex5W "wf.yml".toList [cex5FindChk] =
      ([cex5FindChk, cex5FindScr], none) := by
    rw [show validateScriptInjection cex5W "wf.yml".toList [cex5FindChk] =
        scriptJobs "wf.yml".toList cex5W.jobs [cex5FindChk] from rfl,
      scriptJobs_eq, hjs]
    decide
  unfold validateWorkflow
  simp only
  rw [hchk, hscr]
  decide

end Scorecard
